import Mathlib

/-
  Verification of the TREC inspection-report generator
  (src/generate_report.py and src/Bonus.py).

  Strings are modelled as lists of characters; Python float geometry is
  modelled exactly over the rationals; reportlab's stringWidth for a fixed
  font is the sum of per-character widths, modelled by a parameter
  cw : Char → ℚ.
-/

namespace TREC

/-- Characters treated as whitespace by Python's str.split() / str.strip(). -/
def isPyWS (c : Char) : Bool :=
  c = ' ' || c = '\t' || c = '\n' || c = '\r' || c = '\x0b' || c = '\x0c'

/-- Strings are modelled as lists of characters. -/
abbrev Str := List Char

/-- Helper for pyWords; the second argument is the reversed word in progress. -/
def pyWordsAux : List Char → List Char → List (List Char)
  | [], cur => if cur = [] then [] else [cur.reverse]
  | c :: cs, cur =>
    if isPyWS c then
      if cur = [] then pyWordsAux cs [] else cur.reverse :: pyWordsAux cs []
    else pyWordsAux cs (c :: cur)

/-- Python str.split() with no argument: split on whitespace runs, dropping empties. -/
def pyWords (s : Str) : List Str := pyWordsAux s []

/-- Helper for splitNL; the second argument is the reversed piece in progress. -/
def splitNLAux : List Char → List Char → List (List Char)
  | [], cur => [cur.reverse]
  | c :: cs, cur =>
    if c = '\n' then cur.reverse :: splitNLAux cs [] else splitNLAux cs (c :: cur)

/-- Python str.split("\n"): split at each newline, keeping empty pieces. -/
def splitNL (s : Str) : List Str := splitNLAux s []

/-- Python str.strip(): drop leading and trailing whitespace. -/
def pyStrip (s : Str) : Str := ((s.dropWhile isPyWS).reverse.dropWhile isPyWS).reverse

/-- reportlab stringWidth for a fixed font: the sum of per-character widths. -/
def strWidth (cw : Char → ℚ) (s : Str) : ℚ := (s.map cw).sum

/-- Join words with single spaces, the shape of the lines the greedy packer builds. -/
def spaceJoin (ws : List Str) : Str := List.intercalate [' '] ws

/-- The greedy packing loop of wrap_text; the second argument is the line
under construction (the Python local cur). -/
def packLoop (fits : Str → Bool) : List Str → Str → List Str
  | [], cur => if cur = [] then [] else [cur]
  | w :: ws, cur =>
    let test := if cur = [] then w else cur ++ ' ' :: w
    if fits test then packLoop fits ws test
    else if cur = [] then packLoop fits ws w
    else cur :: packLoop fits ws w

/-- One paragraph of wrap_text: a paragraph with no words yields one blank line,
otherwise the words are packed greedily against the width limit. -/
def wrapPara (cw : Char → ℚ) (maxW : ℚ) (para : Str) : List Str :=
  let ws := pyWords para
  if ws = [] then [[]]
  else packLoop (fun s => decide (strWidth cw s ≤ maxW)) ws []

/-- wrap_text from generate_report.py (identically wrap_lines in Bonus.py):
split on explicit newlines, then greedily pack each paragraph's words. -/
def wrap_text (cw : Char → ℚ) (maxW : ℚ) (text : Str) : List Str :=
  (splitNL text).flatMap (wrapPara cw maxW)

def LINE_HEIGHT : ℚ := 12
def LEFT_PAD : ℚ := 6
def RIGHT_PAD : ℚ := 6
def TOP_PAD : ℚ := 6
def BOT_PAD : ℚ := 6

/-- A widget rectangle as the raw /Rect array (x0, y0, x1, y1). -/
structure Rect where
  x0 : ℚ
  y0 : ℚ
  x1 : ℚ
  y1 : ℚ
  deriving DecidableEq

/-- rect_coords: left edge. -/
def rectLeft (r : Rect) : ℚ := min r.x0 r.x1

/-- rect_coords: right edge. -/
def rectRight (r : Rect) : ℚ := max r.x0 r.x1

/-- rect_coords: bottom edge. -/
def rectBottom (r : Rect) : ℚ := min r.y0 r.y1

/-- rect_coords: top edge. -/
def rectTop (r : Rect) : ℚ := max r.y0 r.y1

/-- max_w in draw_text_in_rect: inner width after left/right padding, clamped at 0. -/
def innerMaxW (r : Rect) : ℚ := max 0 ((rectRight r - RIGHT_PAD) - (rectLeft r + LEFT_PAD))

/-- max_h in draw_text_in_rect: inner height after top/bottom padding, clamped at 0. -/
def innerMaxH (r : Rect) : ℚ := max 0 ((rectTop r - TOP_PAD) - (rectBottom r + BOT_PAD))

/-- Floor of a nonnegative rational, mirroring Python int(x // y) for x ≥ 0, y > 0. -/
def ratFloorNat (q : ℚ) : ℕ := q.num.toNat / q.den

/-- capacity in draw_text_in_rect: how many lines fit in the inner height. -/
def capacityOf (r : Rect) : ℕ := ratFloorNat (innerMaxH r / LINE_HEIGHT)

/-- Result of draw_text_in_rect: the lines actually drawn, the fully-placed
flag, and the remainder text. -/
structure FillResult where
  drawn : List Str
  placed : Bool
  remainder : Str
  deriving DecidableEq

/-- draw_text_in_rect from generate_report.py: wrap to the inner width; if the
capacity is zero return the whole text as remainder; if everything fits draw all
lines; otherwise draw exactly capacity lines and return the tail rejoined with
newlines. -/
def draw_text_in_rect (cw : Char → ℚ) (r : Rect) (text : Str) : FillResult :=
  let lines := wrap_text cw (innerMaxW r) text
  let capacity := capacityOf r
  if capacity = 0 then ⟨[], false, text⟩
  else if lines.length ≤ capacity then ⟨lines, true, []⟩
  else ⟨lines.take capacity, false, List.intercalate ['\n'] (lines.drop capacity)⟩

/-- Abstract decoded image: its pixel dimensions. -/
abbrev Img := ℚ × ℚ

/-- An HTTP response as fetch_image inspects it: status code, parsed
content-length header, and the outcome of the PIL decode / flatten /
thumbnail / re-encode pipeline (error = any exception in it). -/
structure HttpResp where
  status : ℕ
  contentLength : Option ℕ
  body : Except Unit Img

/-- Outcome of requests.get: either an exception or a response. -/
inductive FetchOutcome where
  | raised : FetchOutcome
  | resp : HttpResp → FetchOutcome

/-- fetch_image from generate_report.py (identically in Bonus.py): the whole
body sits in a try/except returning None, so every failure path yields none. -/
def fetch_image (skipLarge : Bool) (o : FetchOutcome) : Option Img :=
  match o with
  | .raised => none
  | .resp r =>
    if r.status ≠ 200 then none
    else if (match r.contentLength with
             | some n => decide (5000000 < n) && skipLarge
             | none => false) then none
    else match r.body with
      | .error _ => none
      | .ok img => some img

/-- C7: when the rectangle's line capacity is zero, draw_text_in_rect draws
nothing and returns not fully placed with the entire original text as remainder. -/
theorem claim7_zero_capacity (cw : Char → ℚ) (r : Rect) (t : Str)
    (h : capacityOf r = 0) :
    draw_text_in_rect cw r t = ⟨[], false, t⟩ := by
  simp [draw_text_in_rect, h]

/-- Witness for C7 at a concrete degenerate rectangle. -/
theorem claim7_witness :
    capacityOf ⟨0, 0, 14, 0⟩ = 0 ∧
    draw_text_in_rect (fun _ => 1) ⟨0, 0, 14, 0⟩ ['a'] = ⟨[], false, ['a']⟩ := by
  have h : capacityOf ⟨0, 0, 14, 0⟩ = 0 := by
    norm_num [capacityOf, ratFloorNat, innerMaxH, rectTop, rectBottom,
      TOP_PAD, BOT_PAD, LINE_HEIGHT]
  exact ⟨h, claim7_zero_capacity _ _ _ h⟩

/-- C9: fetch_image yields a null image on every failure path: transport
exception, non-200 status, oversized content-length with large-image skipping
enabled, or decode error; it never propagates an exception (all paths of the
model are total and return an Option). -/
theorem claim9_fetch_never_raises (skip : Bool) (o : FetchOutcome) :
    (o = .raised → fetch_image skip o = none) ∧
    (∀ r, o = .resp r → r.status ≠ 200 → fetch_image skip o = none) ∧
    (∀ r n, o = .resp r → r.contentLength = some n → 5000000 < n → skip = true →
      fetch_image skip o = none) ∧
    (∀ r e, o = .resp r → r.body = .error e → fetch_image skip o = none) := by
  refine ⟨?_, ?_, ?_, ?_⟩
  · rintro rfl; rfl
  · rintro r rfl hs
    simp [fetch_image, hs]
  · rintro r n rfl hcl hn rfl
    by_cases hs : r.status = 200
    · simp [fetch_image, hs, hcl, hn]
    · simp [fetch_image, hs]
  · rintro r e rfl hb
    by_cases hs : r.status = 200
    · by_cases hbig : (match r.contentLength with
        | some n => decide (5000000 < n) && skip
        | none => false) = true
      · simp [fetch_image, hbig]
      · simp [fetch_image, hs, hbig, hb]
    · simp [fetch_image, hs]

/-- Witness for C9: an HTTP 404 response yields a null image result. -/
theorem claim9_witness :
    fetch_image true (.resp ⟨404, none, Except.ok (1, 1)⟩) = none :=
  (claim9_fetch_never_raises true (.resp ⟨404, none, Except.ok (1, 1)⟩)).2.1
    ⟨404, none, Except.ok (1, 1)⟩ rfl (by decide)

/-- The word sequence of a text: the words of each newline-separated paragraph
in order (since the newline is itself whitespace, this is the t.split() word
sequence of the whole text). -/
def wordSeq (t : Str) : List Str := (splitNL t).flatMap pyWords

/-- A word as produced by pyWords: nonempty and free of whitespace characters. -/
def okWord (w : Str) : Prop := w ≠ [] ∧ ∀ c ∈ w, isPyWS c = false

theorem pyWordsAux_ok : ∀ (l : List Char) (cur : List Char),
    (∀ c ∈ cur, isPyWS c = false) → ∀ w ∈ pyWordsAux l cur, okWord w := by
  intro l
  induction l with
  | nil =>
    intro cur hcur w hw
    by_cases h : cur = []
    · simp [pyWordsAux, h] at hw
    · simp [pyWordsAux, h] at hw
      subst hw
      refine ⟨by simpa using h, ?_⟩
      intro c hc
      exact hcur c (List.mem_reverse.mp hc)
  | cons c cs ih =>
    intro cur hcur w hw
    by_cases hws : isPyWS c
    · by_cases h : cur = []
      · rw [pyWordsAux, if_pos hws, if_pos h] at hw
        exact ih [] (by simp) w hw
      · rw [pyWordsAux, if_pos hws, if_neg h] at hw
        rcases List.mem_cons.mp hw with h1 | h1
        · subst h1
          refine ⟨by simpa using h, ?_⟩
          intro d hd
          exact hcur d (List.mem_reverse.mp hd)
        · exact ih [] (by simp) w h1
    · rw [pyWordsAux, if_neg hws] at hw
      refine ih (c :: cur) ?_ w hw
      intro d hd
      rcases List.mem_cons.mp hd with h1 | h1
      · subst h1; simpa using hws
      · exact hcur d h1

theorem pyWords_ok (s : Str) : ∀ w ∈ pyWords s, okWord w :=
  pyWordsAux_ok s [] (by simp)

theorem pyWordsAux_space (b : List Char) :
    ∀ (a : List Char) (cur : List Char),
      pyWordsAux (a ++ ' ' :: b) cur = pyWordsAux a cur ++ pyWords b := by
  intro a
  induction a with
  | nil =>
    intro cur
    by_cases h : cur = []
    · simp [pyWordsAux, isPyWS, h, pyWords]
    · simp [pyWordsAux, isPyWS, h, pyWords]
  | cons c cs ih =>
    intro cur
    by_cases hws : isPyWS c
    · by_cases h : cur = []
      · rw [List.cons_append, pyWordsAux, if_pos hws, if_pos h,
          pyWordsAux, if_pos hws, if_pos h, ih]
      · rw [List.cons_append, pyWordsAux, if_pos hws, if_neg h,
          pyWordsAux, if_pos hws, if_neg h, ih, List.cons_append]
    · rw [List.cons_append, pyWordsAux, if_neg hws, pyWordsAux, if_neg hws, ih]

theorem pyWords_space (a b : List Char) :
    pyWords (a ++ ' ' :: b) = pyWords a ++ pyWords b :=
  pyWordsAux_space b a []

theorem pyWordsAux_nonws : ∀ (w : List Char) (cur : List Char),
    (∀ c ∈ w, isPyWS c = false) →
    pyWordsAux w cur = pyWordsAux [] (w.reverse ++ cur) := by
  intro w
  induction w with
  | nil => intro cur _; simp
  | cons c cs ih =>
    intro cur hns
    have hc : isPyWS c = false := hns c (by simp)
    conv_lhs => rw [pyWordsAux]
    rw [if_neg (by simp [hc])]
    rw [ih (c :: cur) (fun d hd => hns d (by simp [hd]))]
    simp

theorem pyWords_word (w : Str) (h : okWord w) : pyWords w = [w] := by
  rcases h with ⟨hne, hns⟩
  rw [pyWords, pyWordsAux_nonws w [] hns]
  have : w.reverse ++ [] = w.reverse := by simp
  rw [this, pyWordsAux, if_neg (by simpa using hne)]
  simp

theorem interc1_cons2 (s : Char) (a b : List Char) (l : List (List Char)) :
    List.intercalate [s] (a :: b :: l) = a ++ s :: List.intercalate [s] (b :: l) := by
  simp [List.intercalate, List.intersperse]

theorem spaceJoin_nil : spaceJoin [] = [] := rfl

theorem spaceJoin_single (w : Str) : spaceJoin [w] = w := by
  simp [spaceJoin, List.intercalate]

theorem spaceJoin_cons2 (a b : Str) (l : List Str) :
    spaceJoin (a :: b :: l) = a ++ ' ' :: spaceJoin (b :: l) :=
  interc1_cons2 ' ' a b l

theorem spaceJoin_snoc (ws : List Str) (w : Str) :
    spaceJoin (ws ++ [w]) = if ws = [] then w else spaceJoin ws ++ ' ' :: w := by
  induction ws with
  | nil => simp [spaceJoin_single]
  | cons a l ih =>
    cases l with
    | nil => simp [spaceJoin_cons2, spaceJoin_single]
    | cons b l2 =>
      have ih2 := ih
      rw [List.cons_append] at ih2
      rw [List.cons_append, List.cons_append, spaceJoin_cons2, ih2]
      simp [spaceJoin_cons2, List.append_assoc]

theorem spaceJoin_ne_nil (ws : List Str) (hne : ws ≠ [])
    (h : ∀ w ∈ ws, w ≠ []) : spaceJoin ws ≠ [] := by
  cases ws with
  | nil => exact absurd rfl hne
  | cons a l =>
    cases l with
    | nil =>
      rw [spaceJoin_single]
      exact h a (by simp)
    | cons b l2 =>
      rw [spaceJoin_cons2]
      intro hcontra
      rcases List.append_eq_nil.mp hcontra with ⟨_, h2⟩
      exact List.cons_ne_nil _ _ h2

theorem pyWords_spaceJoin : ∀ (ws : List Str), (∀ w ∈ ws, okWord w) →
    pyWords (spaceJoin ws) = ws := by
  intro ws
  induction ws with
  | nil => intro _; simp [spaceJoin_nil, pyWords, pyWordsAux]
  | cons a l ih =>
    intro h
    cases l with
    | nil =>
      rw [spaceJoin_single]
      exact pyWords_word a (h a (by simp))
    | cons b l2 =>
      rw [spaceJoin_cons2, pyWords_space, pyWords_word a (h a (by simp))]
      rw [ih (fun w hw => h w (by simp [hw]))]
      simp

theorem strWidth_append (cw : Char → ℚ) (a b : Str) :
    strWidth cw (a ++ b) = strWidth cw a + strWidth cw b := by
  simp [strWidth]

theorem strWidth_cons (cw : Char → ℚ) (c : Char) (s : Str) :
    strWidth cw (c :: s) = cw c + strWidth cw s := by
  simp [strWidth]

theorem strWidth_nonneg (cw : Char → ℚ) (h : ∀ c, 0 ≤ cw c) (s : Str) :
    0 ≤ strWidth cw s := by
  refine List.sum_nonneg ?_
  intro x hx
  rcases List.mem_map.mp hx with ⟨c, _, rfl⟩
  exact h c

theorem strWidth_le_spaceJoin (cw : Char → ℚ) (h0 : ∀ c, 0 ≤ cw c) :
    ∀ (ws : List Str) (w : Str), w ∈ ws →
      strWidth cw w ≤ strWidth cw (spaceJoin ws) := by
  intro ws
  induction ws with
  | nil => intro w hw; simp at hw
  | cons a l ih =>
    intro w hw
    cases l with
    | nil =>
      rcases List.mem_cons.mp hw with h1 | h1
      · subst h1; rw [spaceJoin_single]
      · simp at h1
    | cons b l2 =>
      rw [spaceJoin_cons2, strWidth_append, strWidth_cons]
      rcases List.mem_cons.mp hw with h1 | h1
      · subst h1
        have := strWidth_nonneg cw h0 (spaceJoin (b :: l2))
        have := h0 ' '
        linarith
      · have := ih w h1
        have := strWidth_nonneg cw h0 a
        have := h0 ' '
        linarith

/-- Core lemma about the greedy packer: the produced lines are exactly
space-joins of a partition of the incoming words (current line included), and
every multi-word line passed the width test. -/
theorem packLoop_spec (fits : Str → Bool) :
    ∀ (ws : List Str) (curWs : List Str),
      (∀ w ∈ ws, okWord w) → (∀ w ∈ curWs, okWord w) →
      (2 ≤ curWs.length → fits (spaceJoin curWs) = true) →
      ∃ groups : List (List Str),
        packLoop fits ws (spaceJoin curWs) = groups.map spaceJoin ∧
        groups.flatten = curWs ++ ws ∧
        (∀ g ∈ groups,
          g ≠ [] ∧ (∀ w ∈ g, okWord w) ∧ (2 ≤ g.length → fits (spaceJoin g) = true)) := by
  intro ws
  induction ws with
  | nil =>
    intro curWs hws hcur hfit
    by_cases h : curWs = []
    · subst h
      refine ⟨[], ?_, by simp, by simp⟩
      simp [packLoop, spaceJoin_nil]
    · refine ⟨[curWs], ?_, by simp, ?_⟩
      · rw [packLoop, if_neg (spaceJoin_ne_nil curWs h (fun w hw => (hcur w hw).1))]
        simp
      · intro g hg
        rcases List.mem_singleton.mp hg with rfl
        exact ⟨h, hcur, hfit⟩
  | cons w ws ih =>
    intro curWs hws hcur hfit
    have hw : okWord w := hws w (by simp)
    have hws2 : ∀ v ∈ ws, okWord v := fun v hv => hws v (by simp [hv])
    have htest : (if spaceJoin curWs = [] then w else spaceJoin curWs ++ ' ' :: w)
        = spaceJoin (curWs ++ [w]) := by
      rw [spaceJoin_snoc]
      by_cases h : curWs = []
      · simp [h, spaceJoin_nil]
      · rw [if_neg h, if_neg (spaceJoin_ne_nil curWs h (fun w hw => (hcur w hw).1))]
    rw [packLoop]
    rw [htest]
    by_cases hfits : fits (spaceJoin (curWs ++ [w])) = true
    · rw [if_pos hfits]
      have hcur2 : ∀ v ∈ curWs ++ [w], okWord v := by
        intro v hv
        rcases List.mem_append.mp hv with h1 | h1
        · exact hcur v h1
        · rcases List.mem_singleton.mp h1 with rfl; exact hw
      rcases ih (curWs ++ [w]) hws2 hcur2 (fun _ => hfits) with ⟨groups, he, hf, hp⟩
      exact ⟨groups, he, by simp [hf], hp⟩
    · rw [if_neg hfits]
      by_cases h : curWs = []
      · rw [if_pos (by simp [h, spaceJoin_nil])]
        have hone : spaceJoin [w] = w := spaceJoin_single w
        rcases ih [w] hws2 (by intro v hv; rcases List.mem_singleton.mp hv with rfl; exact hw)
          (by intro hlen; simp at hlen) with ⟨groups, he, hf, hp⟩
        rw [hone] at he
        exact ⟨groups, he, by simp [hf, h], hp⟩
      · rw [if_neg (spaceJoin_ne_nil curWs h (fun w hw => (hcur w hw).1))]
        have hone : spaceJoin [w] = w := spaceJoin_single w
        rcases ih [w] hws2 (by intro v hv; rcases List.mem_singleton.mp hv with rfl; exact hw)
          (by intro hlen; simp at hlen) with ⟨groups, he, hf, hp⟩
        refine ⟨curWs :: groups, ?_, by simp [hf], ?_⟩
        · rw [List.map_cons, ← he, hone]
        · intro g hg
          rcases List.mem_cons.mp hg with h1 | h1
          · subst h1; exact ⟨h, hcur, hfit⟩
          · exact hp g h1

/-- The lines of a non-blank paragraph are space-joins of a partition of its
words, every multi-word line fitting the width. -/
theorem wrapPara_spec (cw : Char → ℚ) (maxW : ℚ) (para : Str)
    (hne : pyWords para ≠ []) :
    ∃ groups : List (List Str),
      wrapPara cw maxW para = groups.map spaceJoin ∧
      groups.flatten = pyWords para ∧
      (∀ g ∈ groups,
        g ≠ [] ∧ (∀ w ∈ g, okWord w) ∧
        (2 ≤ g.length → strWidth cw (spaceJoin g) ≤ maxW)) := by
  have h0 : spaceJoin [] = [] := spaceJoin_nil
  rcases packLoop_spec (fun s => decide (strWidth cw s ≤ maxW)) (pyWords para) []
      (pyWords_ok para) (by simp) (by intro h; simp at h) with ⟨groups, he, hf, hp⟩
  rw [h0] at he
  refine ⟨groups, ?_, by simpa using hf, ?_⟩
  · rw [wrapPara, if_neg hne]
    exact he
  · intro g hg
    rcases hp g hg with ⟨h1, h2, h3⟩
    refine ⟨h1, h2, fun hlen => ?_⟩
    have := h3 hlen
    simpa using this

theorem wrapPara_blank (cw : Char → ℚ) (maxW : ℚ) (para : Str)
    (h : pyWords para = []) : wrapPara cw maxW para = [[]] := by
  rw [wrapPara, if_pos h]

theorem wrapPara_words (cw : Char → ℚ) (maxW : ℚ) (para : Str) :
    (wrapPara cw maxW para).flatMap pyWords = pyWords para := by
  by_cases hne : pyWords para = []
  · rw [wrapPara_blank cw maxW para hne, hne]
    simp [pyWords, pyWordsAux]
  · rcases wrapPara_spec cw maxW para hne with ⟨groups, he, hf, hp⟩
    rw [he, List.flatMap_map]
    have : ∀ g ∈ groups, pyWords (spaceJoin g) = g := by
      intro g hg
      exact pyWords_spaceJoin g (hp g hg).2.1
    rw [← hf, List.flatten_eq_flatMap]
    exact List.flatMap_congr this

theorem wrap_text_words (cw : Char → ℚ) (maxW : ℚ) (t : Str) :
    (wrap_text cw maxW t).flatMap pyWords = wordSeq t := by
  rw [wrap_text, wordSeq, List.flatMap_assoc]
  exact List.flatMap_congr (fun p _ => wrapPara_words cw maxW p)

/-- Every line produced for a paragraph either is a single word of the
paragraph or fits the width limit; membership of a word in a line's words
forces equality when the word is overwide. -/
theorem wrapPara_overwide (cw : Char → ℚ) (maxW : ℚ) (h0 : ∀ c, 0 ≤ cw c)
    (para : Str) :
    ∀ ln ∈ wrapPara cw maxW para, ∀ w ∈ pyWords ln,
      maxW < strWidth cw w → ln = w := by
  intro ln hln w hw hwide
  by_cases hne : pyWords para = []
  · rw [wrapPara_blank cw maxW para hne] at hln
    rcases List.mem_singleton.mp hln with rfl
    simp [pyWords, pyWordsAux] at hw
  · rcases wrapPara_spec cw maxW para hne with ⟨groups, he, hf, hp⟩
    rw [he] at hln
    rcases List.mem_map.mp hln with ⟨g, hg, rfl⟩
    rcases hp g hg with ⟨h1, h2, h3⟩
    rw [pyWords_spaceJoin g h2] at hw
    rcases g with _ | ⟨a, l⟩
    · exact absurd rfl h1
    · rcases l with _ | ⟨b, l2⟩
      · rcases List.mem_singleton.mp hw with rfl
        rw [spaceJoin_single]
      · exfalso
        have hfit := h3 (by simp)
        have hle := strWidth_le_spaceJoin cw h0 (a :: b :: l2) w hw
        linarith

/-- C2: wrapping preserves words exactly: the concatenated word sequences of
the output lines equal the word sequence of the input; paragraphs are wrapped
independently; a paragraph without words keeps one blank line; and a word
wider than the width limit stands alone as a full line. -/
theorem claim2_wrap_preserves_words (cw : Char → ℚ) (maxW : ℚ) (t : Str)
    (_hpos : 0 < maxW) (hcw : ∀ c, 0 ≤ cw c) :
    (wrap_text cw maxW t).flatMap pyWords = wordSeq t ∧
    wrap_text cw maxW t = (splitNL t).flatMap (wrapPara cw maxW) ∧
    (∀ p ∈ splitNL t, pyWords p = [] → wrapPara cw maxW p = [[]]) ∧
    (∀ w ∈ wordSeq t, maxW < strWidth cw w →
      w ∈ wrap_text cw maxW t ∧
      ∀ ln ∈ wrap_text cw maxW t, w ∈ pyWords ln → ln = w) := by
  refine ⟨wrap_text_words cw maxW t, rfl, ?_, ?_⟩
  · intro p _ hp
    exact wrapPara_blank cw maxW p hp
  · intro w hwmem hwide
    have hline : ∀ ln ∈ wrap_text cw maxW t, w ∈ pyWords ln → ln = w := by
      intro ln hln hwln
      rw [wrap_text] at hln
      rcases List.mem_flatMap.mp hln with ⟨p, _, hln2⟩
      exact wrapPara_overwide cw maxW hcw p ln hln2 w hwln hwide
    refine ⟨?_, hline⟩
    rw [← wrap_text_words cw maxW t] at hwmem
    rcases List.mem_flatMap.mp hwmem with ⟨ln, hln, hwln⟩
    have := hline ln hln hwln
    subst this
    exact hln

/-- Witness for C2 at unit character widths, width 5 and text "aaaaaaa bb". -/
theorem claim2_witness :
    (0:ℚ) < 5 ∧
    ((wrap_text (fun _ => 1) 5 ['a','a','a','a','a','a','a',' ','b','b']).flatMap pyWords
        = wordSeq ['a','a','a','a','a','a','a',' ','b','b'] ∧
     wrap_text (fun _ => 1) 5 ['a','a','a','a','a','a','a',' ','b','b']
        = (splitNL ['a','a','a','a','a','a','a',' ','b','b']).flatMap (wrapPara (fun _ => 1) 5) ∧
     (∀ p ∈ splitNL ['a','a','a','a','a','a','a',' ','b','b'], pyWords p = [] →
        wrapPara (fun _ => 1) 5 p = [[]]) ∧
     (∀ w ∈ wordSeq ['a','a','a','a','a','a','a',' ','b','b'],
        (5:ℚ) < strWidth (fun _ => 1) w →
        w ∈ wrap_text (fun _ => 1) 5 ['a','a','a','a','a','a','a',' ','b','b'] ∧
        ∀ ln ∈ wrap_text (fun _ => 1) 5 ['a','a','a','a','a','a','a',' ','b','b'],
          w ∈ pyWords ln → ln = w)) :=
  ⟨by norm_num,
   claim2_wrap_preserves_words (fun _ => 1) 5 ['a','a','a','a','a','a','a',' ','b','b']
     (by norm_num) (fun _ => by norm_num)⟩

theorem interc1_single (s : Char) (a : List Char) : List.intercalate [s] [a] = a := by
  simp [List.intercalate]

theorem spaceJoin_chars : ∀ (ws : List Str) (c : Char), c ∈ spaceJoin ws →
    c = ' ' ∨ ∃ w ∈ ws, c ∈ w := by
  intro ws
  induction ws with
  | nil => intro c hc; simp [spaceJoin_nil] at hc
  | cons a l ih =>
    intro c hc
    cases l with
    | nil =>
      rw [spaceJoin_single] at hc
      exact Or.inr ⟨a, by simp, hc⟩
    | cons b l2 =>
      rw [spaceJoin_cons2] at hc
      rcases List.mem_append.mp hc with h1 | h1
      · exact Or.inr ⟨a, by simp, h1⟩
      · rcases List.mem_cons.mp h1 with h2 | h2
        · exact Or.inl h2
        · rcases ih c h2 with h3 | ⟨w, hw, hcw⟩
          · exact Or.inl h3
          · exact Or.inr ⟨w, by simp [hw], hcw⟩

theorem wrapPara_no_nl (cw : Char → ℚ) (maxW : ℚ) (para : Str) :
    ∀ ln ∈ wrapPara cw maxW para, '\n' ∉ ln := by
  intro ln hln hmem
  by_cases hne : pyWords para = []
  · rw [wrapPara_blank cw maxW para hne] at hln
    rcases List.mem_singleton.mp hln with rfl
    simp at hmem
  · rcases wrapPara_spec cw maxW para hne with ⟨groups, he, _, hp⟩
    rw [he] at hln
    rcases List.mem_map.mp hln with ⟨g, hg, rfl⟩
    rcases spaceJoin_chars g '\n' hmem with h1 | ⟨w, hw, hcw⟩
    · exact absurd h1 (by decide)
    · have := ((hp g hg).2.1 w hw).2 '\n' hcw
      simp [isPyWS] at this

theorem wrap_text_no_nl (cw : Char → ℚ) (maxW : ℚ) (t : Str) :
    ∀ ln ∈ wrap_text cw maxW t, '\n' ∉ ln := by
  intro ln hln
  rw [wrap_text] at hln
  rcases List.mem_flatMap.mp hln with ⟨p, _, hln2⟩
  exact wrapPara_no_nl cw maxW p ln hln2

theorem splitNLAux_no_nl : ∀ (a : List Char) (cur : List Char),
    (∀ c ∈ a, ¬(c = '\n')) → splitNLAux a cur = [cur.reverse ++ a] := by
  intro a
  induction a with
  | nil => intro cur _; simp [splitNLAux]
  | cons c cs ih =>
    intro cur h
    conv_lhs => rw [splitNLAux]
    rw [if_neg (h c (by simp))]
    rw [ih (c :: cur) (fun d hd => h d (by simp [hd]))]
    simp

theorem splitNLAux_sep : ∀ (a : List Char) (b : List Char) (cur : List Char),
    (∀ c ∈ a, ¬(c = '\n')) →
    splitNLAux (a ++ '\n' :: b) cur = (cur.reverse ++ a) :: splitNLAux b [] := by
  intro a
  induction a with
  | nil =>
    intro b cur _
    conv_lhs => rw [List.nil_append, splitNLAux]
    simp
  | cons c cs ih =>
    intro b cur h
    conv_lhs => rw [List.cons_append, splitNLAux]
    rw [if_neg (h c (by simp))]
    rw [ih b (c :: cur) (fun d hd => h d (by simp [hd]))]
    simp

theorem splitNL_intercalate : ∀ (ls : List Str), ls ≠ [] →
    (∀ l ∈ ls, '\n' ∉ l) → splitNL (List.intercalate ['\n'] ls) = ls := by
  intro ls
  induction ls with
  | nil => intro h _; exact absurd rfl h
  | cons x l ih =>
    intro _ hnl
    cases l with
    | nil =>
      rw [interc1_single, splitNL, splitNLAux_no_nl x []
        (fun c hc hceq => hnl x (by simp) (hceq ▸ hc))]
      simp
    | cons y l2 =>
      rw [interc1_cons2, splitNL,
        splitNLAux_sep x (List.intercalate ['\n'] (y :: l2)) []
          (fun c hc hceq => hnl x (by simp) (hceq ▸ hc))]
      rw [List.reverse_nil, List.nil_append]
      have := ih (by simp) (fun l hl => hnl l (by simp [hl]))
      rw [splitNL] at this
      rw [this]

theorem draw_text_in_rect_full (cw : Char → ℚ) (r : Rect) (t : Str)
    (h0 : capacityOf r ≠ 0)
    (hlen : (wrap_text cw (innerMaxW r) t).length ≤ capacityOf r) :
    draw_text_in_rect cw r t = ⟨wrap_text cw (innerMaxW r) t, true, []⟩ := by
  simp [draw_text_in_rect, h0, hlen]

theorem draw_text_in_rect_overflow (cw : Char → ℚ) (r : Rect) (t : Str)
    (h0 : capacityOf r ≠ 0)
    (hlen : ¬ (wrap_text cw (innerMaxW r) t).length ≤ capacityOf r) :
    draw_text_in_rect cw r t =
      ⟨(wrap_text cw (innerMaxW r) t).take (capacityOf r), false,
        List.intercalate ['\n'] ((wrap_text cw (innerMaxW r) t).drop (capacityOf r))⟩ := by
  simp [draw_text_in_rect, h0, hlen]

/-- C1 (amended): for rectangles of positive line capacity, draw_text_in_rect
draws exactly the first capacity wrapped lines (all of them when they fit) and
the remainder, split back on newlines, is exactly the unplaced tail; at zero
capacity the remainder is instead the original unwrapped text (see C7). -/
theorem claim1_amended (cw : Char → ℚ) (r : Rect) (t : Str)
    (h : 1 ≤ capacityOf r) :
    (draw_text_in_rect cw r t).drawn
       = (wrap_text cw (innerMaxW r) t).take (capacityOf r) ∧
    (draw_text_in_rect cw r t).drawn.length ≤ capacityOf r ∧
    ((wrap_text cw (innerMaxW r) t).length ≤ capacityOf r ∧
       (draw_text_in_rect cw r t).placed = true ∧
       (draw_text_in_rect cw r t).remainder = [] ∨
     capacityOf r < (wrap_text cw (innerMaxW r) t).length ∧
       (draw_text_in_rect cw r t).placed = false ∧
       splitNL (draw_text_in_rect cw r t).remainder
         = (wrap_text cw (innerMaxW r) t).drop (capacityOf r)) := by
  have h0 : capacityOf r ≠ 0 := by omega
  by_cases hlen : (wrap_text cw (innerMaxW r) t).length ≤ capacityOf r
  · rw [draw_text_in_rect_full cw r t h0 hlen]
    refine ⟨by simp [List.take_of_length_le hlen], by simpa using hlen, Or.inl ⟨hlen, rfl, rfl⟩⟩
  · rw [draw_text_in_rect_overflow cw r t h0 hlen]
    refine ⟨rfl, by simp, Or.inr ⟨by omega, rfl, ?_⟩⟩
    have hdne : (wrap_text cw (innerMaxW r) t).drop (capacityOf r) ≠ [] := by
      rw [Ne, List.drop_eq_nil_iff]
      omega
    refine splitNL_intercalate _ hdne ?_
    intro l hl
    exact wrap_text_no_nl cw (innerMaxW r) t l (List.drop_subset _ _ hl)

/-- Counterexample to C1 as stated: at a rectangle of capacity zero with text
"a " (one word plus a trailing space), nothing is drawn and the remainder is
the original text, whose newline re-split is the single piece "a " and not the
wrapped-line sequence, which is the single line "a". -/
theorem claim1_counterexample :
    ¬ ((draw_text_in_rect (fun _ => 1) ⟨0, 0, 14, 0⟩ ['a', ' ']).drawn.length
         ≤ capacityOf ⟨0, 0, 14, 0⟩ ∧
       (draw_text_in_rect (fun _ => 1) ⟨0, 0, 14, 0⟩ ['a', ' ']).drawn
         ++ splitNL (draw_text_in_rect (fun _ => 1) ⟨0, 0, 14, 0⟩ ['a', ' ']).remainder
         = wrap_text (fun _ => 1) (innerMaxW ⟨0, 0, 14, 0⟩) ['a', ' '] ∧
       (draw_text_in_rect (fun _ => 1) ⟨0, 0, 14, 0⟩ ['a', ' ']).drawn
         = (wrap_text (fun _ => 1) (innerMaxW ⟨0, 0, 14, 0⟩) ['a', ' ']).take
             (capacityOf ⟨0, 0, 14, 0⟩) ∧
       splitNL (draw_text_in_rect (fun _ => 1) ⟨0, 0, 14, 0⟩ ['a', ' ']).remainder
         = (wrap_text (fun _ => 1) (innerMaxW ⟨0, 0, 14, 0⟩) ['a', ' ']).drop
             (capacityOf ⟨0, 0, 14, 0⟩)) := by
  have hcap : capacityOf ⟨0, 0, 14, 0⟩ = 0 := by
    norm_num [capacityOf, ratFloorNat, innerMaxH, rectTop, rectBottom,
      TOP_PAD, BOT_PAD, LINE_HEIGHT]
  have hdraw : draw_text_in_rect (fun _ => 1) ⟨0, 0, 14, 0⟩ ['a', ' ']
      = ⟨[], false, ['a', ' ']⟩ := by
    simp [draw_text_in_rect, hcap]
  have hsplit : splitNL ['a', ' '] = [['a', ' ']] := by decide
  have hpw : pyWords ['a', ' '] = [['a']] := by decide
  have hwrap : wrap_text (fun _ => 1) (innerMaxW ⟨0, 0, 14, 0⟩) ['a', ' '] = [['a']] := by
    rw [wrap_text, hsplit]
    simp only [List.flatMap_cons, List.flatMap_nil, List.append_nil]
    rw [wrapPara, hpw]
    rw [if_neg (by simp)]
    simp [packLoop]
  rintro ⟨-, h2, -, -⟩
  rw [hdraw, hwrap] at h2
  rw [hsplit] at h2
  exact absurd h2 (by decide)

/-- Witness for C1 (amended) at a rectangle of capacity one. -/
theorem claim1_witness :
    1 ≤ capacityOf ⟨0, 0, 20, 24⟩ ∧
    ((draw_text_in_rect (fun _ => 1) ⟨0, 0, 20, 24⟩ ['a', 'b']).drawn
       = (wrap_text (fun _ => 1) (innerMaxW ⟨0, 0, 20, 24⟩) ['a', 'b']).take
           (capacityOf ⟨0, 0, 20, 24⟩) ∧
     (draw_text_in_rect (fun _ => 1) ⟨0, 0, 20, 24⟩ ['a', 'b']).drawn.length
       ≤ capacityOf ⟨0, 0, 20, 24⟩ ∧
     ((wrap_text (fun _ => 1) (innerMaxW ⟨0, 0, 20, 24⟩) ['a', 'b']).length
        ≤ capacityOf ⟨0, 0, 20, 24⟩ ∧
        (draw_text_in_rect (fun _ => 1) ⟨0, 0, 20, 24⟩ ['a', 'b']).placed = true ∧
        (draw_text_in_rect (fun _ => 1) ⟨0, 0, 20, 24⟩ ['a', 'b']).remainder = [] ∨
      capacityOf ⟨0, 0, 20, 24⟩
        < (wrap_text (fun _ => 1) (innerMaxW ⟨0, 0, 20, 24⟩) ['a', 'b']).length ∧
        (draw_text_in_rect (fun _ => 1) ⟨0, 0, 20, 24⟩ ['a', 'b']).placed = false ∧
        splitNL (draw_text_in_rect (fun _ => 1) ⟨0, 0, 20, 24⟩ ['a', 'b']).remainder
          = (wrap_text (fun _ => 1) (innerMaxW ⟨0, 0, 20, 24⟩) ['a', 'b']).drop
              (capacityOf ⟨0, 0, 20, 24⟩))) := by
  have hcap : capacityOf ⟨0, 0, 20, 24⟩ = 1 := by
    norm_num [capacityOf, ratFloorNat, innerMaxH, rectTop, rectBottom,
      TOP_PAD, BOT_PAD, LINE_HEIGHT]
  exact ⟨by omega, claim1_amended (fun _ => 1) ⟨0, 0, 20, 24⟩ ['a', 'b'] (by omega)⟩

/-- Kind of a media entry. -/
inductive MediaKind where
  | photo : MediaKind
  | video : MediaKind
  deriving DecidableEq

/-- A discovered media item: kind and source URL. -/
structure MediaEntry where
  kind : MediaKind
  url : Str
  deriving DecidableEq

/-- A comment of a line item: its text (commentText, already coalesced with the
legacy text key) and its photo / video URL lists; entries that were neither a
string nor a dict with a url key appear as the empty string. -/
structure Comment where
  text : Str
  photos : List Str
  videos : List Str
  deriving DecidableEq

/-- A line item of a section, as extract_items_and_media reads it. -/
structure LineItem where
  name : Str
  title : Str
  inspectionStatus : Str
  comments : List Comment
  deriving DecidableEq

/-- A section of the input document. -/
structure Sec where
  name : Str
  sectionNumber : Str
  lineItems : List LineItem
  deriving DecidableEq

/-- The input document, restricted to the fields the extraction reads. -/
structure Doc where
  headerImageUrl : Option Str
  sections : List Sec
  deriving DecidableEq

/-- An extracted inspection item. The fields paragraphs and mrefs record the
loop-local lists from which the text field was assembled (the Python locals
paragraphs and mrefs of extract_items_and_media). -/
structure Item where
  sectionName : Str
  sectionNumber : Str
  title : Str
  status : Str
  text : Str
  paragraphs : List Str
  mrefs : List ℕ
  deriving DecidableEq

/-- Python `a or b` on strings: b when a is empty. -/
def pyOr (a b : Str) : Str := if a = [] then b else a

/-- Python str.upper(), character by character. -/
def pyUpper (s : Str) : Str := s.map Char.toUpper

/-- The marker token emitted for media index i. -/
def markerOf (i : ℕ) : Str := ('[' :: 'M' :: '#' :: Nat.toDigits 10 i) ++ [']']

/-- Assembly of an item body from its paragraphs and media reference indices,
exactly as in extract_items_and_media: paragraphs joined by blank lines and
stripped; when media references exist, the marker group (markers joined by
single spaces) is appended after a blank-line separator and the result is
stripped again. -/
def itemBody (paragraphs : List Str) (mrefs : List ℕ) : Str :=
  let b := pyStrip (List.intercalate ['\n', '\n'] paragraphs)
  if mrefs = [] then b
  else pyStrip (b ++ (if b = [] then [] else ['\n', '\n']) ++ spaceJoin (mrefs.map markerOf))

/-- Processing of one photo or video URL list of a comment: falsy (empty) URLs
are skipped, the others are appended to the media list and their 1-based index
(the new media length) appended to the item's reference list. -/
def procUrls (kind : MediaKind) :
    List Str → List MediaEntry × List ℕ → List MediaEntry × List ℕ
  | [], st => st
  | url :: rest, (media, mrefs) =>
    if url = [] then procUrls kind rest (media, mrefs)
    else procUrls kind rest (media ++ [⟨kind, url⟩], mrefs ++ [media.length + 1])

/-- Processing of one comment: strip its text, append the unescaped text as a
paragraph when nonempty, then scan its photos and videos. The function unesc
models html.unescape. -/
def procComment (unesc : Str → Str) (cmt : Comment)
    (st : List Str × List MediaEntry × List ℕ) : List Str × List MediaEntry × List ℕ :=
  let text := pyStrip cmt.text
  let paras := if text = [] then st.1 else st.1 ++ [unesc text]
  let st1 := procUrls .photo cmt.photos (st.2.1, st.2.2)
  let st2 := procUrls .video cmt.videos st1
  (paras, st2.1, st2.2)

/-- Left fold of procComment over a comment list. -/
def procComments (unesc : Str → Str) :
    List Comment → List Str × List MediaEntry × List ℕ →
      List Str × List MediaEntry × List ℕ
  | [], st => st
  | c :: cs, st => procComments unesc cs (procComment unesc c st)

/-- Processing of one line item against the running media list: returns the
extracted item and the extended media list. -/
def procLineItem (unesc : Str → Str) (sname snum : Str) (li : LineItem)
    (media : List MediaEntry) : Item × List MediaEntry :=
  let st := procComments unesc li.comments ([], media, [])
  (⟨sname, snum, pyStrip (pyOr li.title li.name), pyUpper li.inspectionStatus,
    itemBody st.1 st.2.2, st.1, st.2.2⟩, st.2.1)

/-- Left fold of procLineItem over the line items of a section. -/
def procLineItems (unesc : Str → Str) (sname snum : Str) :
    List LineItem → List Item × List MediaEntry → List Item × List MediaEntry
  | [], st => st
  | li :: lis, (items, media) =>
    let r := procLineItem unesc sname snum li media
    procLineItems unesc sname snum lis (items ++ [r.1], r.2)

/-- Left fold over the sections of the document. -/
def procSections (unesc : Str → Str) :
    List Sec → List Item × List MediaEntry → List Item × List MediaEntry
  | [], st => st
  | s :: ss, st =>
    procSections unesc ss (procLineItems unesc s.name s.sectionNumber s.lineItems st)

/-- The media list before any section is scanned: the stripped cover image
URL, when present and nonempty. -/
def coverMedia (d : Doc) : List MediaEntry :=
  match d.headerImageUrl with
  | some c => if pyStrip c = [] then [] else [⟨.photo, pyStrip c⟩]
  | none => []

/-- extract_items_and_media from generate_report.py (identically extract in
Bonus.py for the items/media part). -/
def extract_items_and_media (unesc : Str → Str) (d : Doc) :
    List Item × List MediaEntry :=
  procSections unesc d.sections ([], coverMedia d)

/-- An entry of the media map: kind, URL, and prefetched image for photos. -/
structure MapEntry where
  kind : MediaKind
  url : Str
  img : Option Img
  deriving DecidableEq

/-- build_media_map from generate_report.py: the dict {index → entry} with
1-based indices in list order, photos prefetched through the given fetch
function, modelled as the association list of its insertions. -/
def build_media_map (fetch : Str → Option Img) (media : List MediaEntry) :
    List (ℕ × MapEntry) :=
  media.enum.map (fun p =>
    (p.1 + 1, ⟨p.2.kind, p.2.url, if p.2.kind = .photo then fetch p.2.url else none⟩))

theorem procUrls_spec (kind : MediaKind) :
    ∀ (urls : List Str) (media : List MediaEntry) (mrefs : List ℕ),
      ∃ t : List MediaEntry,
        procUrls kind urls (media, mrefs)
          = (media ++ t, mrefs ++ List.range' (media.length + 1) t.length) := by
  intro urls
  induction urls with
  | nil => intro media mrefs; exact ⟨[], by simp [procUrls]⟩
  | cons url rest ih =>
    intro media mrefs
    by_cases h : url = []
    · rcases ih media mrefs with ⟨t, ht⟩
      refine ⟨t, ?_⟩
      rw [procUrls, if_pos h, ht]
    · rcases ih (media ++ [⟨kind, url⟩]) (mrefs ++ [media.length + 1]) with ⟨t, ht⟩
      refine ⟨⟨kind, url⟩ :: t, ?_⟩
      rw [procUrls, if_neg h, ht]
      simp [List.range'_succ, List.append_assoc]

theorem procComment_spec (unesc : Str → Str) (cmt : Comment)
    (paras : List Str) (media : List MediaEntry) (mrefs : List ℕ) :
    ∃ (t : List MediaEntry) (ps : List Str),
      procComment unesc cmt (paras, media, mrefs)
        = (paras ++ ps, media ++ t, mrefs ++ List.range' (media.length + 1) t.length) := by
  rcases procUrls_spec .photo cmt.photos media mrefs with ⟨t1, ht1⟩
  rcases procUrls_spec .video cmt.videos (media ++ t1)
      (mrefs ++ List.range' (media.length + 1) t1.length) with ⟨t2, ht2⟩
  refine ⟨t1 ++ t2, if pyStrip cmt.text = [] then [] else [unesc (pyStrip cmt.text)], ?_⟩
  rw [procComment]
  simp only []
  rw [ht1, ht2]
  have hlen : (media ++ t1).length + 1 = (media.length + 1) + 1 * t1.length := by
    simp; ring
  rw [hlen, List.append_assoc mrefs, List.range'_append]
  by_cases h : pyStrip cmt.text = []
  · simp [h, Nat.add_comm, List.append_assoc]
  · simp [h, Nat.add_comm, List.append_assoc]

theorem procComments_spec (unesc : Str → Str) :
    ∀ (cs : List Comment) (paras : List Str) (media : List MediaEntry) (mrefs : List ℕ),
      ∃ (t : List MediaEntry) (ps : List Str),
        procComments unesc cs (paras, media, mrefs)
          = (paras ++ ps, media ++ t, mrefs ++ List.range' (media.length + 1) t.length) := by
  intro cs
  induction cs with
  | nil => intro paras media mrefs; exact ⟨[], [], by simp [procComments]⟩
  | cons c rest ih =>
    intro paras media mrefs
    rcases procComment_spec unesc c paras media mrefs with ⟨t1, ps1, h1⟩
    rcases ih (paras ++ ps1) (media ++ t1)
        (mrefs ++ List.range' (media.length + 1) t1.length) with ⟨t2, ps2, h2⟩
    refine ⟨t1 ++ t2, ps1 ++ ps2, ?_⟩
    rw [procComments, h1, h2]
    have hlen : (media ++ t1).length + 1 = (media.length + 1) + 1 * t1.length := by
      simp; ring
    rw [hlen, List.append_assoc mrefs, List.range'_append]
    simp [Nat.add_comm, List.append_assoc]

theorem procLineItem_spec (unesc : Str → Str) (sname snum : Str) (li : LineItem)
    (media : List MediaEntry) :
    ∃ t : List MediaEntry,
      (procLineItem unesc sname snum li media).2 = media ++ t ∧
      (procLineItem unesc sname snum li media).1.mrefs
        = List.range' (media.length + 1) t.length := by
  rcases procComments_spec unesc li.comments [] media [] with ⟨t, ps, h⟩
  refine ⟨t, ?_, ?_⟩
  · rw [procLineItem]
    simp only []
    rw [h]
  · rw [procLineItem]
    simp only []
    rw [h]
    simp

theorem procLineItem_text (unesc : Str → Str) (sname snum : Str) (li : LineItem)
    (media : List MediaEntry) :
    (procLineItem unesc sname snum li media).1.text
      = itemBody (procLineItem unesc sname snum li media).1.paragraphs
          (procLineItem unesc sname snum li media).1.mrefs := rfl

theorem procLineItems_spec (unesc : Str → Str) (sname snum : Str) :
    ∀ (lis : List LineItem) (items : List Item) (media : List MediaEntry),
      ∃ (t : List MediaEntry) (newItems : List Item),
        procLineItems unesc sname snum lis (items, media)
          = (items ++ newItems, media ++ t) ∧
        (newItems.map Item.mrefs).flatten = List.range' (media.length + 1) t.length ∧
        (∀ it ∈ newItems, it.text = itemBody it.paragraphs it.mrefs) := by
  intro lis
  induction lis with
  | nil => intro items media; exact ⟨[], [], by simp [procLineItems], by simp, by simp⟩
  | cons li rest ih =>
    intro items media
    rcases procLineItem_spec unesc sname snum li media with ⟨t1, hm1, hr1⟩
    rcases ih (items ++ [(procLineItem unesc sname snum li media).1])
        (media ++ t1) with ⟨t2, new2, h2, hf2, ht2⟩
    refine ⟨t1 ++ t2, (procLineItem unesc sname snum li media).1 :: new2, ?_, ?_, ?_⟩
    · rw [procLineItems]
      rw [hm1, h2]
      simp [List.append_assoc]
    · rw [List.map_cons, List.flatten_cons, hf2, hr1]
      have hlen : (media ++ t1).length + 1 = (media.length + 1) + 1 * t1.length := by
        simp; ring
      rw [hlen, List.range'_append]
      simp [Nat.add_comm]
    · intro it hit
      rcases List.mem_cons.mp hit with h1 | h1
      · subst h1; exact procLineItem_text unesc sname snum li media
      · exact ht2 it h1

theorem procSections_spec (unesc : Str → Str) :
    ∀ (ss : List Sec) (items : List Item) (media : List MediaEntry),
      ∃ (t : List MediaEntry) (newItems : List Item),
        procSections unesc ss (items, media) = (items ++ newItems, media ++ t) ∧
        (newItems.map Item.mrefs).flatten = List.range' (media.length + 1) t.length ∧
        (∀ it ∈ newItems, it.text = itemBody it.paragraphs it.mrefs) := by
  intro ss
  induction ss with
  | nil => intro items media; exact ⟨[], [], by simp [procSections], by simp, by simp⟩
  | cons s rest ih =>
    intro items media
    rcases procLineItems_spec unesc s.name s.sectionNumber s.lineItems items media
      with ⟨t1, new1, h1, hf1, ht1⟩
    rcases ih (items ++ new1) (media ++ t1) with ⟨t2, new2, h2, hf2, ht2⟩
    refine ⟨t1 ++ t2, new1 ++ new2, ?_, ?_, ?_⟩
    · rw [procSections, h1, h2]
      simp [List.append_assoc]
    · rw [List.map_append, List.flatten_append, hf1, hf2]
      have hlen : (media ++ t1).length + 1 = (media.length + 1) + 1 * t1.length := by
        simp; ring
      rw [hlen, List.range'_append]
      simp [Nat.add_comm]
    · intro it hit
      rcases List.mem_append.mp hit with h1 | h1
      · exact ht1 it h1
      · exact ht2 it h1

/-- C3: media indices are assigned stably in scan order: the j-th media entry
discovered (0-based j) is keyed j + 1 in the media map built by
build_media_map, with its kind and URL taken verbatim from the entry (the
fetch function only ever fills the img slot), and the concatenation of the
items' media reference lists is exactly the consecutive range of indices
following the cover image. -/
theorem claim3_media_index_stable (unesc : Str → Str) (d : Doc)
    (fetch : Str → Option Img) :
    (∀ (j : ℕ) (m : MediaEntry),
      ((extract_items_and_media unesc d).2).get? j = some m →
      (build_media_map fetch (extract_items_and_media unesc d).2).get? j
        = some (j + 1, ⟨m.kind, m.url, if m.kind = .photo then fetch m.url else none⟩)) ∧
    ((extract_items_and_media unesc d).1.map Item.mrefs).flatten
      = List.range' ((coverMedia d).length + 1)
          ((extract_items_and_media unesc d).2.length - (coverMedia d).length) := by
  constructor
  · intro j m hm
    rw [build_media_map, List.get?_map, List.get?_enum, hm]
    rfl
  · rcases procSections_spec unesc d.sections [] (coverMedia d) with ⟨t, new, h, hf, _⟩
    rw [extract_items_and_media, h]
    simp only [List.nil_append]
    rw [hf]
    have : (coverMedia d ++ t).length - (coverMedia d).length = t.length := by
      simp
    rw [this]

/-- Witness for C3 on a one-section document with a cover image, one photo and
one video. -/
theorem claim3_witness :
    ((build_media_map (fun _ => none)
        (extract_items_and_media id
          ⟨some ['u'], [⟨['s'], ['1'],
            [⟨['n'], ['t'], ['d'], [⟨['h', 'i'], [['p']], [['v']]⟩]⟩]⟩]⟩).2).get? 1
      = some (2, ⟨.photo, ['p'], none⟩)) ∧
    ((extract_items_and_media id
        ⟨some ['u'], [⟨['s'], ['1'],
          [⟨['n'], ['t'], ['d'], [⟨['h', 'i'], [['p']], [['v']]⟩]⟩]⟩]⟩).1.map
        Item.mrefs).flatten
      = List.range' 2 2 := by
  have h := claim3_media_index_stable id
    ⟨some ['u'], [⟨['s'], ['1'], [⟨['n'], ['t'], ['d'], [⟨['h', 'i'], [['p']], [['v']]⟩]⟩]⟩]⟩
    (fun _ => none)
  refine ⟨?_, ?_⟩
  · have h1 := h.1 1 ⟨.photo, ['p']⟩ (by decide)
    rw [h1]
    decide
  · have h2 := h.2
    rw [h2]
    decide

theorem dropWhile_head_false (p : Char → Bool) :
    ∀ (l : List Char) (c : Char), (l.dropWhile p).head? = some c → p c = false := by
  intro l
  induction l with
  | nil => intro c h; simp at h
  | cons a t ih =>
    intro c h
    by_cases hp : p a
    · rw [List.dropWhile_cons, if_pos hp] at h
      exact ih c h
    · rw [List.dropWhile_cons, if_neg hp] at h
      simp only [List.head?_cons, Option.some.injEq] at h
      subst h
      simpa using hp

theorem suffix_getLast? {α : Type} {l1 l2 : List α}
    (h : List.IsSuffix l1 l2) (hne : l1 ≠ []) : l1.getLast? = l2.getLast? := by
  rcases h with ⟨pre, rfl⟩
  rw [List.getLast?_append_of_ne_nil pre hne]

theorem pyStrip_head_ok (s : Str) (c : Char) (h : (pyStrip s).head? = some c) :
    isPyWS c = false := by
  rw [pyStrip, List.head?_reverse] at h
  have hne : (s.dropWhile isPyWS).reverse.dropWhile isPyWS ≠ [] := by
    intro hcontra
    rw [hcontra] at h
    simp at h
  rw [suffix_getLast? (List.dropWhile_suffix isPyWS) hne, List.getLast?_reverse] at h
  exact dropWhile_head_false isPyWS _ c h

theorem pyStrip_last_ok (s : Str) (c : Char) (h : (pyStrip s).getLast? = some c) :
    isPyWS c = false := by
  rw [pyStrip, List.getLast?_reverse] at h
  exact dropWhile_head_false isPyWS _ c h

theorem pyStrip_eq_self (s : Str)
    (h1 : ∀ c, s.head? = some c → isPyWS c = false)
    (h2 : ∀ c, s.getLast? = some c → isPyWS c = false) : pyStrip s = s := by
  cases s with
  | nil => rfl
  | cons a t =>
    have ha : isPyWS a = false := h1 a rfl
    rw [pyStrip, List.dropWhile_cons, if_neg (by simp [ha])]
    obtain ⟨d, r, hd⟩ : ∃ d r, (a :: t).reverse = d :: r := by
      cases hrev : (a :: t).reverse with
      | nil => exact absurd hrev (by simp)
      | cons d r => exact ⟨d, r, rfl⟩
    have hdlast : (a :: t).getLast? = some d := by
      rw [← List.head?_reverse, hd]
      rfl
    have hdn : isPyWS d = false := h2 d hdlast
    rw [hd, List.dropWhile_cons, if_neg (by simp [hdn]), ← hd]
    simp

theorem markerOf_ne_nil (i : ℕ) : markerOf i ≠ [] := by
  rw [markerOf]
  simp

theorem markers_head (ms : List ℕ) (hne : ms ≠ []) :
    (spaceJoin (ms.map markerOf)).head? = some '[' := by
  cases ms with
  | nil => exact absurd rfl hne
  | cons i rest =>
    rw [List.map_cons]
    cases rest with
    | nil =>
      rw [List.map_nil, spaceJoin_single, markerOf]
      rfl
    | cons j r2 =>
      rw [List.map_cons, spaceJoin_cons2,
        List.head?_append_of_ne_nil _ (markerOf_ne_nil i), markerOf]
      rfl

theorem markers_last : ∀ (ms : List ℕ), ms ≠ [] →
    (spaceJoin (ms.map markerOf)).getLast? = some ']' := by
  intro ms
  induction ms with
  | nil => intro h; exact absurd rfl h
  | cons i rest ih =>
    intro _
    rw [List.map_cons]
    cases rest with
    | nil =>
      rw [List.map_nil, spaceJoin_single, markerOf, List.getLast?_concat]
    | cons j r2 =>
      rw [List.map_cons, spaceJoin_cons2]
      have hne2 : spaceJoin (markerOf j :: List.map markerOf r2) ≠ [] := by
        refine spaceJoin_ne_nil _ (by simp) ?_
        intro w hw
        rcases List.mem_cons.mp hw with h1 | h1
        · subst h1; exact markerOf_ne_nil j
        · rcases List.mem_map.mp h1 with ⟨k, _, rfl⟩
          exact markerOf_ne_nil k
      have hsplit : markerOf i ++ ' ' :: spaceJoin (markerOf j :: List.map markerOf r2)
          = (markerOf i ++ [' ']) ++ spaceJoin (markerOf j :: List.map markerOf r2) := by
        simp
      rw [hsplit, List.getLast?_append_of_ne_nil _ hne2]
      have hres := ih (by simp)
      rw [List.map_cons] at hres
      exact hres

/-- The outer strip in the body assembly is the identity: the stripped text
part begins and ends with non-whitespace, and the marker group begins with a
bracket and ends with a bracket. -/
theorem itemBody_eq (paragraphs : List Str) (mrefs : List ℕ) :
    itemBody paragraphs mrefs
      = pyStrip (List.intercalate ['\n', '\n'] paragraphs)
        ++ (if mrefs = [] then []
            else (if pyStrip (List.intercalate ['\n', '\n'] paragraphs) = [] then []
                  else ['\n', '\n']) ++ spaceJoin (mrefs.map markerOf)) := by
  by_cases hm : mrefs = []
  · simp [itemBody, hm]
  · rw [itemBody]
    simp only [if_neg hm]
    have hmark_ne : spaceJoin (mrefs.map markerOf) ≠ [] := by
      refine spaceJoin_ne_nil _ (by simpa using hm) ?_
      intro w hw
      rcases List.mem_map.mp hw with ⟨k, _, rfl⟩
      exact markerOf_ne_nil k
    set b := pyStrip (List.intercalate ['\n', '\n'] paragraphs) with hb
    have heq : pyStrip (b ++ (if b = [] then [] else ['\n', '\n'])
        ++ spaceJoin (mrefs.map markerOf))
        = b ++ (if b = [] then [] else ['\n', '\n']) ++ spaceJoin (mrefs.map markerOf) := by
      apply pyStrip_eq_self
      · intro c hc
        by_cases hbe : b = []
        · rw [hbe] at hc
          have hc2 : (spaceJoin (mrefs.map markerOf)).head? = some c := by
            simpa using hc
          rw [markers_head mrefs hm] at hc2
          injection hc2 with hc3
          rw [← hc3]
          decide
        · rw [List.append_assoc, List.head?_append_of_ne_nil _ hbe] at hc
          rw [hb] at hc
          exact pyStrip_head_ok _ c hc
      · intro c hc
        rw [List.getLast?_append_of_ne_nil _ hmark_ne, markers_last mrefs hm] at hc
        injection hc with hc3
        rw [← hc3]
        decide
    rw [heq]
    simp [List.append_assoc]

/-- C10: in every extracted item body, all media markers trail the comment
text: the body is the stripped blank-line-joined paragraph text followed, when
the item has media references, by the single marker group (markers joined by
single spaces), separated from nonempty text by one blank line; markers are
never interleaved inside the paragraph text. -/
theorem claim10_markers_trailing (unesc : Str → Str) (d : Doc) :
    ∀ it ∈ (extract_items_and_media unesc d).1,
      it.text
        = pyStrip (List.intercalate ['\n', '\n'] it.paragraphs)
          ++ (if it.mrefs = [] then []
              else (if pyStrip (List.intercalate ['\n', '\n'] it.paragraphs) = [] then []
                    else ['\n', '\n']) ++ spaceJoin (it.mrefs.map markerOf)) := by
  intro it hit
  rcases procSections_spec unesc d.sections [] (coverMedia d) with ⟨t, new, h, _, htext⟩
  rw [extract_items_and_media, h] at hit
  simp only [List.nil_append] at hit
  rw [htext it hit]
  exact itemBody_eq it.paragraphs it.mrefs

/-- Witness for C10 at a one-comment document with one photo marker. -/
theorem claim10_witness :
    (⟨['s'], ['1'], ['t'], ['D'], ['h', 'i', '\n', '\n', '[', 'M', '#', '1', ']'],
        [['h', 'i']], [1]⟩ : Item).text
      = pyStrip (List.intercalate ['\n', '\n'] [['h', 'i']])
        ++ (if ([1] : List ℕ) = [] then []
            else (if pyStrip (List.intercalate ['\n', '\n'] [['h', 'i']]) = [] then []
                  else ['\n', '\n']) ++ spaceJoin (([1] : List ℕ).map markerOf)) :=
  claim10_markers_trailing id
    ⟨none, [⟨['s'], ['1'],
      [⟨[], ['t'], ['d'], [⟨['h', 'i'], [['p']], []⟩]⟩]⟩]⟩
    ⟨['s'], ['1'], ['t'], ['D'], ['h', 'i', '\n', '\n', '[', 'M', '#', '1', ']'],
      [['h', 'i']], [1]⟩
    (by decide)

/-- A checkbox widget: its page index, the widget number parsed from the
CheckBox1[n] field name, and the first non-Off appearance state name of its
/AP /N dictionary (none when there is no such key). -/
structure CheckWidget where
  page : ℕ
  widx : ℕ
  onName : Option Str
  deriving DecidableEq

/-- The /Off appearance state name. -/
def offName : Str := ['/', 'O', 'f', 'f']

def statusI : Str := ['I']

def statusNI : Str := ['N', 'I']

def statusNP : Str := ['N', 'P']

def statusD : Str := ['D']

/-- The fixed code order I, NI, NP, D of a checkbox group. -/
def checkOrder : List Str := [statusI, statusNI, statusNP, statusD]

/-- The state written to one widget of a group: its on name when the item's
status equals the code at this position and the widget has an on state,
otherwise /Off. -/
def checkState (status code : Str) (w : CheckWidget) : Str :=
  match w.onName with
  | some nm => if status = code then nm else offName
  | none => offName

/-- The sort key order of the checkbox list: by page, then widget index
(the Python key (page, widget index), ascending lexicographic). -/
def cbRel (a b : CheckWidget) : Prop :=
  a.page < b.page ∨ (a.page = b.page ∧ a.widx ≤ b.widx)

instance : DecidableRel cbRel := fun a b => by unfold cbRel; infer_instance

instance : IsTotal CheckWidget cbRel := by
  constructor
  intro a b
  rcases Nat.lt_trichotomy a.page b.page with h | h | h
  · exact Or.inl (Or.inl h)
  · rcases Nat.le_total a.widx b.widx with h2 | h2
    · exact Or.inl (Or.inr ⟨h, h2⟩)
    · exact Or.inr (Or.inr ⟨h.symm, h2⟩)
  · exact Or.inr (Or.inl h)

instance : IsTrans CheckWidget cbRel := by
  constructor
  intro a b c hab hbc
  rcases hab with h1 | ⟨h1, h1w⟩
  · rcases hbc with h2 | ⟨h2, _⟩
    · exact Or.inl (h1.trans h2)
    · exact Or.inl (h2 ▸ h1)
  · rcases hbc with h2 | ⟨h2, h2w⟩
    · exact Or.inl (h1 ▸ h2)
    · exact Or.inr ⟨h1.trans h2, h1w.trans h2w⟩

/-- Python's stable sort by key (page, widget index), modelled by stable
insertion sort (stable sorts of a list under a total preorder agree). -/
def sortChecks (cbs : List CheckWidget) : List CheckWidget :=
  List.insertionSort cbRel cbs

/-- The checkbox-setting loop of fill_trec_form over the sorted widget list:
for each item in turn the loop stops when fewer than four widgets remain,
otherwise the next four widgets receive states in the order I, NI, NP, D.
The result lists, positionally, the state written to each widget of the
sorted list (none = never touched). -/
def assignLoop : List Item → List CheckWidget → List (Option Str)
  | [], cbs => cbs.map (fun _ => none)
  | it :: its, cbs =>
    if cbs.length < 4 then cbs.map (fun _ => none)
    else (List.zipWith (fun code w => some (checkState it.status code w))
        checkOrder (cbs.take 4))
      ++ assignLoop its (cbs.drop 4)

/-- The checkbox phase of fill_trec_form: sort, then assign in groups of four. -/
def fill_checkboxes (items : List Item) (cbs : List CheckWidget) : List (Option Str) :=
  assignLoop items (sortChecks cbs)

theorem get?_zipWith {α β γ : Type} (f : α → β → γ) (l1 : List α) (l2 : List β) (n : ℕ) :
    (List.zipWith f l1 l2).get? n
      = match l1.get? n, l2.get? n with
        | some a, some b => some (f a b)
        | _, _ => none := by
  simp only [List.get?_eq_getElem?, List.getElem?_zipWith]
  rfl

theorem checkState_ne (status code : Str) (w : CheckWidget) (h : status ≠ code) :
    checkState status code w = offName := by
  rw [checkState]
  cases w.onName with
  | none => rfl
  | some nm => simp [h]

theorem checkState_on (status : Str) (w : CheckWidget) (nm : Str)
    (h : w.onName = some nm) : checkState status status w = nm := by
  rw [checkState, h]
  simp

theorem assignLoop_group :
    ∀ (g : ℕ) (its : List Item) (cbs : List CheckWidget) (it : Item) (j : ℕ)
      (w : CheckWidget) (code : Str),
      its.get? g = some it → 4 * g + 4 ≤ cbs.length → j < 4 →
      cbs.get? (4 * g + j) = some w → checkOrder.get? j = some code →
      (assignLoop its cbs).get? (4 * g + j)
        = some (some (checkState it.status code w)) := by
  intro g
  induction g with
  | zero =>
    intro its cbs it j w code hits hlen hj hcb hcode
    cases its with
    | nil => simp at hits
    | cons it0 rest =>
      have hit0 : it0 = it := by simpa using hits
      subst hit0
      have hidx : 4 * 0 + j = j := by omega
      rw [hidx] at hcb ⊢
      rw [assignLoop, if_neg (by omega)]
      have hfl : (List.zipWith (fun code w => some (checkState it0.status code w))
          checkOrder (cbs.take 4)).length = 4 := by
        rw [List.length_zipWith, List.length_take]
        have hco : checkOrder.length = 4 := rfl
        rw [hco]
        omega
      rw [List.get?_append (by omega), get?_zipWith, hcode, List.get?_take hj, hcb]
  | succ g ih =>
    intro its cbs it j w code hits hlen hj hcb hcode
    cases its with
    | nil => simp at hits
    | cons it0 rest =>
      rw [assignLoop, if_neg (by omega)]
      have hfl : (List.zipWith (fun code w => some (checkState it0.status code w))
          checkOrder (cbs.take 4)).length = 4 := by
        rw [List.length_zipWith, List.length_take]
        have hco : checkOrder.length = 4 := rfl
        rw [hco]
        omega
      rw [List.get?_append_right (by omega), hfl]
      have hidx : 4 * (g + 1) + j - 4 = 4 * g + j := by omega
      rw [hidx]
      refine ih rest (cbs.drop 4) it j w code (by simpa using hits) ?_ hj ?_ hcode
      · rw [List.length_drop]; omega
      · rw [List.get?_drop]
        have : 4 + (4 * g + j) = 4 * (g + 1) + j := by omega
        rw [this]
        exact hcb

theorem assignLoop_untouched :
    ∀ (g : ℕ) (its : List Item) (cbs : List CheckWidget) (it : Item),
      its.get? g = some it → cbs.length < 4 * g + 4 →
      ∀ i, 4 * g ≤ i → i < cbs.length → (assignLoop its cbs).get? i = some none := by
  intro g
  induction g with
  | zero =>
    intro its cbs it hits hlen i _ hlt
    cases its with
    | nil => simp at hits
    | cons it0 rest =>
      rw [assignLoop, if_pos (by omega), List.get?_map]
      cases hcb : cbs.get? i with
      | none => rw [List.get?_eq_none] at hcb; omega
      | some w => simp
  | succ g ih =>
    intro its cbs it hits hlen i hge hlt
    cases its with
    | nil => simp at hits
    | cons it0 rest =>
      by_cases h4 : cbs.length < 4
      · rw [assignLoop, if_pos h4, List.get?_map]
        cases hcb : cbs.get? i with
        | none => rw [List.get?_eq_none] at hcb; omega
        | some w => simp
      · rw [assignLoop, if_neg h4]
        have hfl : (List.zipWith (fun code w => some (checkState it0.status code w))
            checkOrder (cbs.take 4)).length = 4 := by
          rw [List.length_zipWith, List.length_take]
          have hco : checkOrder.length = 4 := rfl
          rw [hco]
          omega
        rw [List.get?_append_right (by omega), hfl]
        refine ih rest (cbs.drop 4) it (by simpa using hits) ?_ (i - 4) (by omega) ?_
        · rw [List.length_drop]; omega
        · rw [List.length_drop]; omega

/-- C4: in the sorted checkbox list, the group of four consecutive widgets
bound to an item of status D has exactly its fourth widget set to its on
appearance state and the first three set to /Off; and when an item is due but
fewer than four widgets remain, every widget of that partial group is left
untouched. -/
theorem claim4_checkbox_groups (items : List Item) (cbs : List CheckWidget) :
    (∀ (g : ℕ) (it : Item) (w4 : CheckWidget) (nm : Str),
      items.get? g = some it → it.status = statusD →
      4 * g + 4 ≤ (sortChecks cbs).length →
      (sortChecks cbs).get? (4 * g + 3) = some w4 → w4.onName = some nm →
      (fill_checkboxes items cbs).get? (4 * g) = some (some offName) ∧
      (fill_checkboxes items cbs).get? (4 * g + 1) = some (some offName) ∧
      (fill_checkboxes items cbs).get? (4 * g + 2) = some (some offName) ∧
      (fill_checkboxes items cbs).get? (4 * g + 3) = some (some nm)) ∧
    (∀ (g : ℕ) (it : Item), items.get? g = some it →
      (sortChecks cbs).length < 4 * g + 4 →
      ∀ i, 4 * g ≤ i → i < (sortChecks cbs).length →
      (fill_checkboxes items cbs).get? i = some none) := by
  constructor
  · intro g it w4 nm hits hD hlen hw4 hon
    have hget : ∀ j, j < 4 → ∃ w, (sortChecks cbs).get? (4 * g + j) = some w := by
      intro j hj
      cases hcb : (sortChecks cbs).get? (4 * g + j) with
      | none => rw [List.get?_eq_none] at hcb; omega
      | some w => exact ⟨w, rfl⟩
    rcases hget 0 (by omega) with ⟨w1, hw1⟩
    rcases hget 1 (by omega) with ⟨w2, hw2⟩
    rcases hget 2 (by omega) with ⟨w3, hw3⟩
    have h0 := assignLoop_group g items (sortChecks cbs) it 0 w1 statusI hits hlen
      (by omega) hw1 rfl
    have h1 := assignLoop_group g items (sortChecks cbs) it 1 w2 statusNI hits hlen
      (by omega) hw2 rfl
    have h2 := assignLoop_group g items (sortChecks cbs) it 2 w3 statusNP hits hlen
      (by omega) hw3 rfl
    have h3 := assignLoop_group g items (sortChecks cbs) it 3 w4 statusD hits hlen
      (by omega) hw4 rfl
    rw [hD] at h0 h1 h2 h3
    rw [checkState_ne _ _ _ (by decide)] at h0
    rw [checkState_ne _ _ _ (by decide)] at h1
    rw [checkState_ne _ _ _ (by decide)] at h2
    rw [checkState_on _ _ _ hon] at h3
    have hz : 4 * g + 0 = 4 * g := by omega
    rw [hz] at h0
    exact ⟨h0, h1, h2, h3⟩
  · intro g it hits hlen i hge hlt
    exact assignLoop_untouched g items (sortChecks cbs) it hits hlen i hge hlt

/-- Witness for C4: one item of status D bound to four widgets on one page. -/
theorem claim4_witness :
    (fill_checkboxes
        [⟨['s'], ['1'], ['t'], statusD, [], [], []⟩]
        [⟨0, 0, some ['/', '1']⟩, ⟨0, 1, some ['/', '2']⟩,
         ⟨0, 2, some ['/', '3']⟩, ⟨0, 3, some ['/', '4']⟩]).get? 0
      = some (some offName) ∧
    (fill_checkboxes
        [⟨['s'], ['1'], ['t'], statusD, [], [], []⟩]
        [⟨0, 0, some ['/', '1']⟩, ⟨0, 1, some ['/', '2']⟩,
         ⟨0, 2, some ['/', '3']⟩, ⟨0, 3, some ['/', '4']⟩]).get? 1
      = some (some offName) ∧
    (fill_checkboxes
        [⟨['s'], ['1'], ['t'], statusD, [], [], []⟩]
        [⟨0, 0, some ['/', '1']⟩, ⟨0, 1, some ['/', '2']⟩,
         ⟨0, 2, some ['/', '3']⟩, ⟨0, 3, some ['/', '4']⟩]).get? 2
      = some (some offName) ∧
    (fill_checkboxes
        [⟨['s'], ['1'], ['t'], statusD, [], [], []⟩]
        [⟨0, 0, some ['/', '1']⟩, ⟨0, 1, some ['/', '2']⟩,
         ⟨0, 2, some ['/', '3']⟩, ⟨0, 3, some ['/', '4']⟩]).get? 3
      = some (some ['/', '4']) :=
  (claim4_checkbox_groups
      [⟨['s'], ['1'], ['t'], statusD, [], [], []⟩]
      [⟨0, 0, some ['/', '1']⟩, ⟨0, 1, some ['/', '2']⟩,
       ⟨0, 2, some ['/', '3']⟩, ⟨0, 3, some ['/', '4']⟩]).1
    0 ⟨['s'], ['1'], ['t'], statusD, [], [], []⟩ ⟨0, 3, some ['/', '4']⟩ ['/', '4']
    (by decide) (by decide) (by decide) (by decide) (by decide)

/-- A comment-field candidate: its page index and widget rectangle. -/
structure CField where
  page : ℕ
  rect : Rect
  deriving DecidableEq

/-- The sort key order of comment-field candidates: by page, then by
descending top coordinate (the Python key (page, -top)). -/
def fieldRel (a b : CField) : Prop :=
  a.page < b.page ∨ (a.page = b.page ∧ rectTop b.rect ≤ rectTop a.rect)

instance : DecidableRel fieldRel := fun a b => by unfold fieldRel; infer_instance

instance : IsTotal CField fieldRel := by
  constructor
  intro a b
  rcases Nat.lt_trichotomy a.page b.page with h | h | h
  · exact Or.inl (Or.inl h)
  · rcases le_total (rectTop b.rect) (rectTop a.rect) with h2 | h2
    · exact Or.inl (Or.inr ⟨h, h2⟩)
    · exact Or.inr (Or.inr ⟨h.symm, h2⟩)
  · exact Or.inr (Or.inl h)

instance : IsTrans CField fieldRel := by
  constructor
  intro a b c hab hbc
  rcases hab with h1 | ⟨h1, h1w⟩
  · rcases hbc with h2 | ⟨h2, _⟩
    · exact Or.inl (h1.trans h2)
    · exact Or.inl (h2 ▸ h1)
  · rcases hbc with h2 | ⟨h2, h2w⟩
    · exact Or.inl (h1 ▸ h2)
    · exact Or.inr ⟨h1.trans h2, h2w.trans h1w⟩

/-- Python's stable sort of the candidate list by key (page, -top), modelled
by stable insertion sort. -/
def sortFields (fs : List CField) : List CField := List.insertionSort fieldRel fs

/-- An overflow entry routed to the appendix: the four keys the appendix
rendering reads. -/
structure OEntry where
  sectionName : Str
  sectionNumber : Str
  title : Str
  text : Str
  deriving DecidableEq

/-- Projection of an unbound item into the overflow list (the code appends the
item dict itself; the appendix reads these four keys). -/
def itemToOEntry (it : Item) : OEntry :=
  ⟨it.sectionName, it.sectionNumber, it.title, it.text⟩

/-- The 1:1 positional binding of items to sorted candidates (zip truncates at
the shorter list, matching max_bind = min of the lengths). -/
def boundPairs (items : List Item) (fields : List CField) : List (Item × CField) :=
  items.zip (sortFields fields)

/-- The remainder entries produced while rendering the bound overlays page by
page: any bound item whose draw_text_in_rect result is not fully placed with a
non-blank remainder contributes an entry carrying its section metadata and the
remainder text. -/
def overlayRemainders (cw : Char → ℚ) (numPages : ℕ)
    (pairs : List (Item × CField)) : List OEntry :=
  (List.range numPages).flatMap (fun p =>
    (pairs.filter (fun pr => pr.2.page == p)).filterMap (fun pr =>
      let res := draw_text_in_rect cw pr.2.rect pr.1.text
      if res.placed = false ∧ pyStrip res.remainder ≠ [] then
        some ⟨pr.1.sectionName, pr.1.sectionNumber, pr.1.title, res.remainder⟩
      else none))

/-- The full overflow list routed to the appendix: overlay remainders first,
then every item beyond the candidate count, unmodified. -/
def overflowList (cw : Char → ℚ) (numPages : ℕ)
    (items : List Item) (fields : List CField) : List OEntry :=
  overlayRemainders cw numPages (boundPairs items fields)
    ++ (items.drop (min items.length (sortFields fields).length)).map itemToOEntry

/-- C5: comment-field candidates are ordered by page then descending top
coordinate; item i is bound to candidate i wherever both exist; and the items
at or beyond the candidate count form, unmodified and in order, the tail of
the overflow list routed to the appendix. -/
theorem claim5_comment_binding (cw : Char → ℚ) (numPages : ℕ)
    (items : List Item) (fields : List CField) :
    List.Pairwise fieldRel (sortFields fields) ∧
    (∀ (i : ℕ) (it : Item) (f : CField),
      items.get? i = some it → (sortFields fields).get? i = some f →
      (boundPairs items fields).get? i = some (it, f)) ∧
    List.IsSuffix
      ((items.drop (min items.length (sortFields fields).length)).map itemToOEntry)
      (overflowList cw numPages items fields) := by
  refine ⟨List.sorted_insertionSort fieldRel fields, ?_, ?_⟩
  · intro i it f hit hf
    rw [boundPairs, List.zip, get?_zipWith, hit, hf]
  · exact List.suffix_append _ _

/-- Witness for C5: two items against a single candidate field. -/
theorem claim5_witness :
    List.Pairwise fieldRel (sortFields [⟨2, ⟨0, 0, 400, 100⟩⟩]) ∧
    (boundPairs [⟨['a'], [], [], [], [], [], []⟩, ⟨['b'], [], [], [], [], [], []⟩]
        [⟨2, ⟨0, 0, 400, 100⟩⟩]).get? 0
      = some (⟨['a'], [], [], [], [], [], []⟩, ⟨2, ⟨0, 0, 400, 100⟩⟩) ∧
    List.IsSuffix
      (([⟨['a'], [], [], [], [], [], []⟩, ⟨['b'], [], [], [], [], [], []⟩].drop
          (min ([⟨['a'], [], [], [], [], [], []⟩,
                 (⟨['b'], [], [], [], [], [], []⟩ : Item)].length)
            (sortFields [⟨2, ⟨0, 0, 400, 100⟩⟩]).length)).map itemToOEntry)
      (overflowList (fun _ => 1) 7
        [⟨['a'], [], [], [], [], [], []⟩, ⟨['b'], [], [], [], [], [], []⟩]
        [⟨2, ⟨0, 0, 400, 100⟩⟩]) :=
  ⟨(claim5_comment_binding (fun _ => 1) 7
      [⟨['a'], [], [], [], [], [], []⟩, ⟨['b'], [], [], [], [], [], []⟩]
      [⟨2, ⟨0, 0, 400, 100⟩⟩]).1,
   (claim5_comment_binding (fun _ => 1) 7
      [⟨['a'], [], [], [], [], [], []⟩, ⟨['b'], [], [], [], [], [], []⟩]
      [⟨2, ⟨0, 0, 400, 100⟩⟩]).2.1 0 ⟨['a'], [], [], [], [], [], []⟩
      ⟨2, ⟨0, 0, 400, 100⟩⟩ (by decide) (by decide),
   (claim5_comment_binding (fun _ => 1) 7
      [⟨['a'], [], [], [], [], [], []⟩, ⟨['b'], [], [], [], [], [], []⟩]
      [⟨2, ⟨0, 0, 400, 100⟩⟩]).2.2⟩

/-- INLINE_IMG_MAX_H = 2.4 inch at 72 points per inch = 172.8 points. -/
def INLINE_IMG_MAX_H : ℚ := 864 / 5

/-- A drawing operation of the inline rich-block renderer, with the vertical
positions it touches. -/
inductive Op where
  | pageBreak : Op
  | line : ℚ → Str → Op
  | label : ℚ → Str → Op
  | image : ℚ → ℚ → Op
  deriving DecidableEq

/-- The line-drawing loop shared by draw_wrapped and the video-URL printer:
draw each wrapped line, first breaking to a fresh page (cursor page_h - 60)
whenever the cursor has dropped below 60. -/
def drawLinesOps (pageH : ℚ) : List Str → ℚ → List Op × ℚ
  | [], y => ([], y)
  | ln :: ls, y =>
    if y < 60 then
      let rest := drawLinesOps pageH ls (pageH - 60 - LINE_HEIGHT)
      (Op.pageBreak :: Op.line (pageH - 60) ln :: rest.1, rest.2)
    else
      let rest := drawLinesOps pageH ls (y - LINE_HEIGHT)
      (Op.line y ln :: rest.1, rest.2)

/-- draw_wrapped inside draw_inline_richblock: nothing for an empty chunk,
otherwise the wrapped lines drawn through the guarded loop. -/
def draw_wrapped (cw : Char → ℚ) (width pageH : ℚ) (chunk : Str) (y : ℚ) :
    List Op × ℚ :=
  if chunk = [] then ([], y)
  else drawLinesOps pageH (wrap_text cw width chunk) y

/-- The rendered size (rw, rh) of an inline photo of pixel size (iw, ih) in a
column of the given width: both dimensions scaled by
min(width / iw, INLINE_IMG_MAX_H / ih). -/
def photoScaled (width iw ih : ℚ) : ℚ × ℚ :=
  (iw * min (width / iw) (INLINE_IMG_MAX_H / ih),
   ih * min (width / iw) (INLINE_IMG_MAX_H / ih))

/-- Decimal rendering of a media index for the inline labels. -/
def natStr (n : ℕ) : Str := Nat.toDigits 10 n

def photoLabel (idx : ℕ) : Str :=
  ('M' :: '#' :: natStr idx) ++ [':', ' ', 'p', 'h', 'o', 't', 'o']

def missingLabel (idx : ℕ) : Str :=
  ('M' :: '#' :: natStr idx) ++ [':', ' ', '(', 'm', 'i', 's', 's', 'i', 'n', 'g', ')']

def unavailLabel (idx : ℕ) : Str :=
  ('M' :: '#' :: natStr idx)
    ++ [':', ' ', 'p', 'h', 'o', 't', 'o', ' ', '(', 'u', 'n', 'a', 'v', 'a', 'i',
        'l', 'a', 'b', 'l', 'e', ')']

def videoLabel (idx : ℕ) : Str :=
  ('M' :: '#' :: natStr idx) ++ [':', ' ', 'v', 'i', 'd', 'e', 'o']

/-- The photo branch of the token renderer: break first when the scaled image
plus its caption would not fit above the bottom threshold; then the caption
label (12pt advance), the image below it, and an 8pt gap. -/
def photoOps (pageH : ℚ) (idx : ℕ) (rh : ℚ) (y : ℚ) : List Op × ℚ :=
  if y - rh - 16 < 60 then
    ([Op.pageBreak, Op.label (pageH - 60) (photoLabel idx),
      Op.image (pageH - 60 - 12) (pageH - 60 - 12 - rh)],
     pageH - 60 - 12 - rh - 8)
  else
    ([Op.label y (photoLabel idx), Op.image (y - 12) (y - 12 - rh)],
     y - 12 - rh - 8)

/-- The token-rendering step of draw_inline_richblock: a pre-break when the
cursor is below 70, then the missing / photo / video / unavailable cases. -/
def drawTok (showUrls : Bool) (cw : Char → ℚ) (width pageH : ℚ)
    (mm : ℕ → Option MapEntry) (idx : ℕ) (y : ℚ) : List Op × ℚ :=
  let brk := if y < 70 then ([Op.pageBreak], pageH - 60) else (([] : List Op), y)
  match mm idx with
  | none => (brk.1 ++ [Op.label brk.2 (missingLabel idx)], brk.2 - LINE_HEIGHT)
  | some meta =>
    match meta.kind, meta.img with
    | MediaKind.photo, some sz =>
      let rh := (photoScaled width sz.1 sz.2).2
      let res := photoOps pageH idx rh brk.2
      (brk.1 ++ res.1, res.2)
    | MediaKind.video, _ =>
      let brk2 := if brk.2 < 70 then ([Op.pageBreak], pageH - 60)
        else (([] : List Op), brk.2)
      let afterLabel := brk2.2 - LINE_HEIGHT
      let urls := if showUrls ∧ meta.url ≠ [] then
          drawLinesOps pageH (wrap_text cw width meta.url) afterLabel
        else ([], afterLabel)
      (brk.1 ++ brk2.1 ++ Op.label brk2.2 (videoLabel idx) :: urls.1, urls.2)
    | MediaKind.photo, none =>
      (brk.1 ++ [Op.label brk.2 (unavailLabel idx)], brk.2 - LINE_HEIGHT)

/-- Decimal value of a digit run for the token scanner. -/
def digitsVal (ds : List Char) : ℕ :=
  ds.foldl (fun n c => n * 10 + (c.toNat - '0'.toNat)) 0

/-- Match of the regex \[M#([0-9]+)\] at the head of the character list:
the index value and the remaining characters after the closing bracket. -/
def matchTok (l : List Char) : Option (ℕ × List Char) :=
  match l with
  | '[' :: 'M' :: '#' :: rest =>
    if rest.takeWhile (fun c => c.isDigit) = [] then none
    else
      match rest.drop (rest.takeWhile (fun c => c.isDigit)).length with
      | ']' :: rest2 => some (digitsVal (rest.takeWhile (fun c => c.isDigit)), rest2)
      | _ => none
  | _ => none

/-- A segment of the scanned text: literal text between tokens, or a token. -/
inductive Seg where
  | text : Str → Seg
  | tok : ℕ → Seg
  deriving DecidableEq

theorem matchTok_rest_lt (l : List Char) (n : ℕ) (rest : List Char)
    (h : matchTok l = some (n, rest)) : rest.length < l.length := by
  unfold matchTok at h
  split at h
  · rename_i r
    split at h
    · exact absurd h (by simp)
    · split at h
      · rename_i c2 r2 hdrop
        have hr2 : r2.length + 1 = (r.drop (r.takeWhile (fun c => c.isDigit)).length).length := by
          rw [hdrop]
          rfl
        rw [List.length_drop] at hr2
        have hin : rest = r2 := by
          injection h with h2
          injection h2 with _ h3
          exact h3.symm
        subst hin
        simp only [List.length_cons]
        omega
      · exact absurd h (by simp)
  · exact absurd h (by simp)

/-- MEDIA_TOKEN_RE.finditer over the text: alternating literal and token
segments, left to right, leftmost matches; the first argument is the reversed
pending literal chunk. -/
def splitToksAux : List Char → List Char → List Seg
  | acc, [] => [Seg.text acc.reverse]
  | acc, c :: cs =>
    match h : matchTok (c :: cs) with
    | some (n, rest) => Seg.text acc.reverse :: Seg.tok n :: splitToksAux [] rest
    | none => splitToksAux (c :: acc) cs
termination_by _ l => l.length
decreasing_by
  · exact matchTok_rest_lt (c :: cs) n rest h
  · simp

def splitToks (t : Str) : List Seg := splitToksAux [] t

/-- One segment of the renderer: literal text flows through draw_wrapped,
tokens through drawTok. -/
def drawSeg (showUrls : Bool) (cw : Char → ℚ) (width pageH : ℚ)
    (mm : ℕ → Option MapEntry) : Seg → ℚ → List Op × ℚ
  | Seg.text t, y => draw_wrapped cw width pageH t y
  | Seg.tok n, y => drawTok showUrls cw width pageH mm n y

/-- Sequential rendering of the segment list, threading the cursor. -/
def drawSegs (showUrls : Bool) (cw : Char → ℚ) (width pageH : ℚ)
    (mm : ℕ → Option MapEntry) : List Seg → ℚ → List Op × ℚ
  | [], y => ([], y)
  | s :: ss, y =>
    let r1 := drawSeg showUrls cw width pageH mm s y
    let r2 := drawSegs showUrls cw width pageH mm ss r1.2
    (r1.1 ++ r2.1, r2.2)

/-- draw_inline_richblock from generate_report.py as the trace of drawing
operations it performs together with the final cursor position. -/
def draw_inline_richblock (showUrls : Bool) (cw : Char → ℚ) (width pageH : ℚ)
    (mm : ℕ → Option MapEntry) (text : Str) (y : ℚ) : List Op × ℚ :=
  drawSegs showUrls cw width pageH mm (splitToks text) y

/-- Lower vertical extent of an operation; page breaks draw nothing and are
assigned the threshold itself. -/
def opLow : Op → ℚ
  | Op.pageBreak => 60
  | Op.line y _ => y
  | Op.label y _ => y
  | Op.image _ yBot => yBot

/-- The operation is a text draw at the fresh top-of-page position. -/
def topDrawAt (pageH : ℚ) (op : Op) : Prop :=
  (∃ s, op = Op.line (pageH - 60) s) ∨ (∃ s, op = Op.label (pageH - 60) s)

/-- Relation between consecutive operations: a page break is immediately
followed by a draw at the top of the fresh page. -/
def stepOk (pageH : ℚ) (a b : Op) : Prop :=
  a = Op.pageBreak → topDrawAt pageH b

/-- The cursor invariant of a trace: every operation stays at or above the
bottom threshold, every page break is immediately followed by a top-of-page
draw, and a trace never ends on a pending page break. -/
def TraceOK (pageH : ℚ) (ops : List Op) : Prop :=
  (∀ op ∈ ops, 60 ≤ opLow op) ∧
  List.Chain' (stepOk pageH) ops ∧
  ops.getLast? ≠ some Op.pageBreak

theorem traceOK_nil (pageH : ℚ) : TraceOK pageH [] := ⟨by simp, by simp, by simp⟩

theorem getLast?_cons_ne (op : Op) (l : List Op) (hop : op ≠ Op.pageBreak)
    (hl : l.getLast? ≠ some Op.pageBreak) :
    (op :: l).getLast? ≠ some Op.pageBreak := by
  cases l with
  | nil => simpa using hop
  | cons b t =>
    rw [List.getLast?_cons_cons]
    exact hl

theorem TraceOK.consDraw {pageH : ℚ} {op : Op} {l : List Op}
    (hlow : 60 ≤ opLow op) (hop : op ≠ Op.pageBreak)
    (h : TraceOK pageH l) : TraceOK pageH (op :: l) := by
  refine ⟨?_, ?_, getLast?_cons_ne op l hop h.2.2⟩
  · intro o ho
    rcases List.mem_cons.mp ho with h1 | h1
    · subst h1; exact hlow
    · exact h.1 o h1
  · rw [List.chain'_cons']
    refine ⟨?_, h.2.1⟩
    intro o _ heq
    exact absurd heq hop

theorem topDrawAt_ne_break {pageH : ℚ} {op : Op} (h : topDrawAt pageH op) :
    op ≠ Op.pageBreak := by
  rcases h with ⟨s, rfl⟩ | ⟨s, rfl⟩ <;> simp

theorem TraceOK.breakCons {pageH : ℚ} {op : Op} {l : List Op}
    (htop : topDrawAt pageH op) (hlow : 60 ≤ opLow op)
    (h : TraceOK pageH l) : TraceOK pageH (Op.pageBreak :: op :: l) := by
  have hop : op ≠ Op.pageBreak := topDrawAt_ne_break htop
  refine ⟨?_, ?_, ?_⟩
  · intro o ho
    rcases List.mem_cons.mp ho with h1 | h1
    · subst h1; simp [opLow]
    · rcases List.mem_cons.mp h1 with h2 | h2
      · subst h2; exact hlow
      · exact h.1 o h2
  · rw [List.chain'_cons]
    refine ⟨fun _ => htop, ?_⟩
    rw [List.chain'_cons']
    refine ⟨?_, h.2.1⟩
    intro o _ heq
    exact absurd heq hop
  · rw [List.getLast?_cons_cons]
    exact getLast?_cons_ne op l hop h.2.2

theorem TraceOK.app {pageH : ℚ} {l1 l2 : List Op}
    (h1 : TraceOK pageH l1) (h2 : TraceOK pageH l2) : TraceOK pageH (l1 ++ l2) := by
  refine ⟨?_, ?_, ?_⟩
  · intro o ho
    rcases List.mem_append.mp ho with h | h
    · exact h1.1 o h
    · exact h2.1 o h
  · refine List.Chain'.append h1.2.1 h2.2.1 ?_
    intro x hx y _ heq
    subst heq
    exact absurd hx (by simpa using h1.2.2)
  · cases hl2 : l2 with
    | nil => rw [List.append_nil]; exact h1.2.2
    | cons b t =>
      rw [List.getLast?_append_of_ne_nil _ (by simp)]
      rw [← hl2]
      exact h2.2.2

theorem traceOK_drawLines (pageH : ℚ) (hp : 120 ≤ pageH) :
    ∀ (ls : List Str) (y : ℚ), TraceOK pageH (drawLinesOps pageH ls y).1 := by
  intro ls
  induction ls with
  | nil => intro y; exact traceOK_nil pageH
  | cons ln rest ih =>
    intro y
    by_cases hy : y < 60
    · rw [drawLinesOps, if_pos hy]
      exact TraceOK.breakCons (Or.inl ⟨ln, rfl⟩) (by simp [opLow]; linarith) (ih _)
    · rw [drawLinesOps, if_neg hy]
      exact TraceOK.consDraw (by simp [opLow]; linarith) (by simp) (ih _)

theorem traceOK_drawWrapped (cw : Char → ℚ) (width pageH : ℚ) (hp : 120 ≤ pageH)
    (chunk : Str) (y : ℚ) : TraceOK pageH (draw_wrapped cw width pageH chunk y).1 := by
  rw [draw_wrapped]
  by_cases h : chunk = []
  · rw [if_pos h]; exact traceOK_nil pageH
  · rw [if_neg h]; exact traceOK_drawLines pageH hp _ y

theorem photoScaled_rh_nonneg (width iw ih : ℚ) (hw : 0 ≤ width)
    (hiw : 0 < iw) (hih : 0 < ih) : 0 ≤ (photoScaled width iw ih).2 := by
  rw [photoScaled]
  have h1 : 0 ≤ width / iw := div_nonneg hw hiw.le
  have h2 : 0 ≤ INLINE_IMG_MAX_H / ih := by
    refine div_nonneg ?_ hih.le
    rw [INLINE_IMG_MAX_H]
    norm_num
  exact mul_nonneg hih.le (le_min h1 h2)

theorem photoScaled_rh_le (width iw ih : ℚ) (hih : 0 < ih) :
    (photoScaled width iw ih).2 ≤ INLINE_IMG_MAX_H := by
  rw [photoScaled]
  have h1 : ih * min (width / iw) (INLINE_IMG_MAX_H / ih)
      ≤ ih * (INLINE_IMG_MAX_H / ih) :=
    mul_le_mul_of_nonneg_left (min_le_right _ _) hih.le
  calc ih * min (width / iw) (INLINE_IMG_MAX_H / ih)
      ≤ ih * (INLINE_IMG_MAX_H / ih) := h1
    _ = INLINE_IMG_MAX_H := by
        rw [mul_comm, div_mul_cancel₀ _ (ne_of_gt hih)]

theorem traceOK_photoOps (pageH : ℚ) (hp : (1544 : ℚ) / 5 ≤ pageH)
    (idx : ℕ) (rh : ℚ) (hrh0 : 0 ≤ rh) (hrhM : rh ≤ INLINE_IMG_MAX_H) (y : ℚ) :
    TraceOK pageH (photoOps pageH idx rh y).1 := by
  have hM : INLINE_IMG_MAX_H = 864 / 5 := rfl
  rw [photoOps]
  by_cases hg : y - rh - 16 < 60
  · rw [if_pos hg]
    refine TraceOK.breakCons (Or.inr ⟨photoLabel idx, rfl⟩)
      (by simp [opLow]; linarith) ?_
    refine TraceOK.consDraw ?_ (by simp) (traceOK_nil pageH)
    simp only [opLow]
    rw [hM] at hrhM
    linarith
  · rw [if_neg hg]
    refine TraceOK.consDraw (by simp [opLow]; linarith) (by simp) ?_
    refine TraceOK.consDraw ?_ (by simp) (traceOK_nil pageH)
    simp only [opLow]
    linarith

theorem traceOK_drawTok (showUrls : Bool) (cw : Char → ℚ) (width pageH : ℚ)
    (hp : (1544 : ℚ) / 5 ≤ pageH) (hw : 0 ≤ width)
    (mm : ℕ → Option MapEntry)
    (him : ∀ k m sz, mm k = some m → m.img = some sz → 0 < sz.1 ∧ 0 < sz.2)
    (idx : ℕ) (y : ℚ) :
    TraceOK pageH (drawTok showUrls cw width pageH mm idx y).1 := by
  have hM : INLINE_IMG_MAX_H = 864 / 5 := rfl
  rw [drawTok]
  cases hmm : mm idx with
  | none =>
    by_cases hy : y < 70
    · rw [if_pos hy]
      dsimp only
      rw [List.singleton_append]
      exact TraceOK.breakCons (Or.inr ⟨missingLabel idx, rfl⟩)
        (by simp [opLow]; linarith) (traceOK_nil pageH)
    · rw [if_neg hy]
      dsimp only
      rw [List.nil_append]
      exact TraceOK.consDraw (by simp [opLow]; linarith) (by simp) (traceOK_nil pageH)
  | some meta =>
    obtain ⟨mkind, murl, mimg⟩ := meta
    cases mkind with
    | photo =>
      cases mimg with
      | none =>
        by_cases hy : y < 70
        · rw [if_pos hy]
          dsimp only
          rw [List.singleton_append]
          exact TraceOK.breakCons (Or.inr ⟨unavailLabel idx, rfl⟩)
            (by simp [opLow]; linarith) (traceOK_nil pageH)
        · rw [if_neg hy]
          dsimp only
          rw [List.nil_append]
          exact TraceOK.consDraw (by simp [opLow]; linarith) (by simp) (traceOK_nil pageH)
      | some sz =>
        have hdims := him idx ⟨MediaKind.photo, murl, some sz⟩ sz hmm rfl
        have hrh0 := photoScaled_rh_nonneg width sz.1 sz.2 hw hdims.1 hdims.2
        have hrhM := photoScaled_rh_le width sz.1 sz.2 hdims.2
        by_cases hy : y < 70
        · rw [if_pos hy]
          dsimp only
          have hng : ¬ (pageH - 60 - (photoScaled width sz.1 sz.2).2 - 16 < 60) := by
            rw [hM] at hrhM
            linarith
          rw [photoOps, if_neg hng, List.singleton_append]
          exact TraceOK.breakCons (Or.inr ⟨photoLabel idx, rfl⟩)
            (by simp [opLow]; linarith)
            (TraceOK.consDraw (by simp only [opLow]; rw [hM] at hrhM; linarith)
              (by simp) (traceOK_nil pageH))
        · rw [if_neg hy]
          dsimp only
          rw [List.nil_append]
          exact traceOK_photoOps pageH hp idx _ hrh0 hrhM y
    | video =>
      by_cases hy : y < 70
      · rw [if_pos hy]
        dsimp only
        have hb2 : ¬ (pageH - 60 < 70) := by linarith
        rw [if_neg hb2]
        dsimp only
        by_cases hu : showUrls = true ∧ murl ≠ []
        · rw [if_pos hu, List.singleton_append]
          exact TraceOK.breakCons (Or.inr ⟨videoLabel idx, rfl⟩)
            (by simp [opLow]; linarith)
            (traceOK_drawLines pageH (by linarith) _ _)
        · rw [if_neg hu, List.singleton_append]
          exact TraceOK.breakCons (Or.inr ⟨videoLabel idx, rfl⟩)
            (by simp [opLow]; linarith) (traceOK_nil pageH)
      · rw [if_neg hy]
        dsimp only
        rw [if_neg hy]
        dsimp only
        by_cases hu : showUrls = true ∧ murl ≠ []
        · rw [if_pos hu]
          exact TraceOK.consDraw (by simp [opLow]; linarith) (by simp)
            (traceOK_drawLines pageH (by linarith) _ _)
        · rw [if_neg hu]
          exact TraceOK.consDraw (by simp [opLow]; linarith) (by simp)
            (traceOK_nil pageH)

theorem traceOK_drawSegs (showUrls : Bool) (cw : Char → ℚ) (width pageH : ℚ)
    (hp : (1544 : ℚ) / 5 ≤ pageH) (hw : 0 ≤ width)
    (mm : ℕ → Option MapEntry)
    (him : ∀ k m sz, mm k = some m → m.img = some sz → 0 < sz.1 ∧ 0 < sz.2) :
    ∀ (ss : List Seg) (y : ℚ),
      TraceOK pageH (drawSegs showUrls cw width pageH mm ss y).1 := by
  intro ss
  induction ss with
  | nil => intro y; exact traceOK_nil pageH
  | cons s rest ih =>
    intro y
    rw [drawSegs]
    refine TraceOK.app ?_ (ih _)
    cases s with
    | text t => exact traceOK_drawWrapped cw width pageH (by linarith) t y
    | tok n => exact traceOK_drawTok showUrls cw width pageH hp hw mm him n y

/-- C6: during draw_inline_richblock, every drawing operation (text line,
placeholder label, caption, image, video label) stays at or above the bottom
threshold of 60 points, and every page break is immediately followed by a draw
at the fresh top-of-page cursor page_h - 60; breaks happen only between whole
line / media operations, never inside one (operations are atomic in the
trace). Hypotheses: the page is at least 308.8 points tall (136 points of
margins and caption around the 172.8-point maximum inline image height), the
column width is nonnegative, and decoded images have positive dimensions. -/
theorem claim6_cursor_invariant (showUrls : Bool) (cw : Char → ℚ)
    (width pageH : ℚ) (mm : ℕ → Option MapEntry) (text : Str) (y : ℚ)
    (hp : (1544 : ℚ) / 5 ≤ pageH) (hw : 0 ≤ width)
    (him : ∀ k m sz, mm k = some m → m.img = some sz → 0 < sz.1 ∧ 0 < sz.2) :
    (∀ op ∈ (draw_inline_richblock showUrls cw width pageH mm text y).1,
      60 ≤ opLow op) ∧
    (∀ i : ℕ,
      (draw_inline_richblock showUrls cw width pageH mm text y).1.get? i
        = some Op.pageBreak →
      ∃ op2, (draw_inline_richblock showUrls cw width pageH mm text y).1.get? (i + 1)
          = some op2 ∧ topDrawAt pageH op2) := by
  have htr : TraceOK pageH (draw_inline_richblock showUrls cw width pageH mm text y).1 :=
    traceOK_drawSegs showUrls cw width pageH hp hw mm him (splitToks text) y
  refine ⟨htr.1, ?_⟩
  intro i hi
  set ops := (draw_inline_richblock showUrls cw width pageH mm text y).1 with hops
  have hilt : i < ops.length := by
    by_contra hc
    rw [not_lt, ← List.get?_eq_none] at hc
    rw [hc] at hi
    exact absurd hi (by simp)
  have hine : i ≠ ops.length - 1 := by
    intro heq
    apply htr.2.2
    rw [List.getLast?_eq_get?, ← heq, hi]
  have hi1 : i + 1 < ops.length := by omega
  have hstep := List.chain'_iff_get.mp htr.2.1 i (by omega)
  refine ⟨ops.get ⟨i + 1, hi1⟩, ?_, ?_⟩
  · rw [List.get?_eq_get hi1]
  · apply hstep
    have := List.get?_eq_get hilt
    rw [hi] at this
    injection this with h2
    exact h2.symm

/-- Witness for C6 on a letter-height page with one unmapped token. -/
theorem claim6_witness :
    (∀ op ∈ (draw_inline_richblock false (fun _ => 1) 200 792 (fun _ => none)
        ['x', '[', 'M', '#', '1', ']'] 700).1, 60 ≤ opLow op) ∧
    (∀ i : ℕ,
      (draw_inline_richblock false (fun _ => 1) 200 792 (fun _ => none)
        ['x', '[', 'M', '#', '1', ']'] 700).1.get? i = some Op.pageBreak →
      ∃ op2, (draw_inline_richblock false (fun _ => 1) 200 792 (fun _ => none)
          ['x', '[', 'M', '#', '1', ']'] 700).1.get? (i + 1)
        = some op2 ∧ topDrawAt 792 op2) :=
  claim6_cursor_invariant false (fun _ => 1) 200 792 (fun _ => none)
    ['x', '[', 'M', '#', '1', ']'] 700
    (by norm_num) (by norm_num) (fun k m sz h _ => nomatch h)

/-- C8: the rendered inline photo size (rw, rh) = (iw, ih) scaled by
min(width/iw, INLINE_IMG_MAX_H/ih) never exceeds the column width in width
nor the fixed maximum inline height in height, preserves the aspect ratio
exactly (rw * ih = iw * rh), and the photo branch emits a page break before
the caption and image exactly when the scaled image plus its caption would
drop below the bottom threshold. -/
theorem claim8_photo_scaling (width iw ih : ℚ)
    (_hw : 0 < width) (hiw : 0 < iw) (hih : 0 < ih) :
    (photoScaled width iw ih).1 ≤ width ∧
    (photoScaled width iw ih).2 ≤ INLINE_IMG_MAX_H ∧
    (photoScaled width iw ih).1 * ih = iw * (photoScaled width iw ih).2 ∧
    (∀ (pageH : ℚ) (idx : ℕ) (y : ℚ),
      y - (photoScaled width iw ih).2 - 16 < 60 →
      photoOps pageH idx (photoScaled width iw ih).2 y
        = ([Op.pageBreak, Op.label (pageH - 60) (photoLabel idx),
            Op.image (pageH - 60 - 12) (pageH - 60 - 12 - (photoScaled width iw ih).2)],
           pageH - 60 - 12 - (photoScaled width iw ih).2 - 8)) ∧
    (∀ (pageH : ℚ) (idx : ℕ) (y : ℚ),
      ¬ (y - (photoScaled width iw ih).2 - 16 < 60) →
      photoOps pageH idx (photoScaled width iw ih).2 y
        = ([Op.label y (photoLabel idx),
            Op.image (y - 12) (y - 12 - (photoScaled width iw ih).2)],
           y - 12 - (photoScaled width iw ih).2 - 8)) := by
  refine ⟨?_, photoScaled_rh_le width iw ih hih, ?_, ?_, ?_⟩
  · rw [photoScaled]
    calc iw * min (width / iw) (INLINE_IMG_MAX_H / ih)
        ≤ iw * (width / iw) := mul_le_mul_of_nonneg_left (min_le_left _ _) hiw.le
      _ = width := by rw [mul_comm, div_mul_cancel₀ _ (ne_of_gt hiw)]
  · rw [photoScaled]
    ring
  · intro pageH idx y hy
    rw [photoOps, if_pos hy]
  · intro pageH idx y hy
    rw [photoOps, if_neg hy]

/-- Witness for C8 at a 100 x 100 image in a 200-point column. -/
theorem claim8_witness :
    (photoScaled 200 100 100).1 ≤ 200 ∧
    (photoScaled 200 100 100).2 ≤ INLINE_IMG_MAX_H ∧
    (photoScaled 200 100 100).1 * 100 = 100 * (photoScaled 200 100 100).2 ∧
    (∀ (pageH : ℚ) (idx : ℕ) (y : ℚ),
      y - (photoScaled 200 100 100).2 - 16 < 60 →
      photoOps pageH idx (photoScaled 200 100 100).2 y
        = ([Op.pageBreak, Op.label (pageH - 60) (photoLabel idx),
            Op.image (pageH - 60 - 12) (pageH - 60 - 12 - (photoScaled 200 100 100).2)],
           pageH - 60 - 12 - (photoScaled 200 100 100).2 - 8)) ∧
    (∀ (pageH : ℚ) (idx : ℕ) (y : ℚ),
      ¬ (y - (photoScaled 200 100 100).2 - 16 < 60) →
      photoOps pageH idx (photoScaled 200 100 100).2 y
        = ([Op.label y (photoLabel idx),
            Op.image (y - 12) (y - 12 - (photoScaled 200 100 100).2)],
           y - 12 - (photoScaled 200 100 100).2 - 8)) :=
  claim8_photo_scaling 200 100 100 (by norm_num) (by norm_num) (by norm_num)

end TREC
